import Mathlib

/-!
# thpool: a fixed-size worker pool over a linked FIFO task queue

A shallow embedding of `src/thpool.c`.

* Task nodes live in a heap of `task_t` cells addressed by natural numbers;
  a C pointer is an `Option Nat` (`none` is `NULL`).  `malloc` is a fresh
  address chosen by the environment, `free` clears the cell.
* `task_queue_empty`, `task_queue_add`, `task_queue_pull` are the queue
  functions of lines 42-75, acting on the heap and on the `head`/`tail`
  pointers.  They return `none` where the C code would dereference `NULL` or
  a freed node.
* `thpool_create` (lines 124-181) and `thpool_add` (lines 237-262) are
  functions of the outcomes of the library calls they make (`malloc`,
  `pthread_mutex_init`, `pthread_create`, ...), and record the calls they
  make as a list of events.  `int` values are unbounded integers; the one
  computation that wraps, the `size_t` argument of `malloc` at line 142, is
  taken modulo `2 ^ 64`.
* The worker loop `thpool_thread` (lines 82-116) and `thpool_destroy`
  (lines 187-229) run concurrently; they are the transitions of a machine
  whose steps are the blocks of code between two blocking points
  (`pthread_mutex_lock`, `pthread_cond_wait`, `pthread_join`).  A block that
  runs with `pool_mutex` held is one step, since the mutex serialises it
  against every other such block.  The parts of `thpool_add` outside its
  critical section (`malloc`, the two stores into the new node, the `free` on
  rejection) touch only the caller's own node, so a call is one step as well.
* A worker blocked in `pthread_cond_wait` may resume at any time: POSIX allows
  spurious wake-ups, and the loop at line 88 re-tests its condition.
* The machine goes on after `thpool_destroy` has returned, with the values
  the pool fields had when it was freed.
-/

namespace Thpool

/-! ## Data model (lines 8-35) -/

/-- A task node: `func`, `arg` and the `next` link (lines 8-12).  Function and
argument pointers are opaque numbers. -/
structure task_t where
  func : Nat
  arg : Nat
  next : Option Nat
deriving DecidableEq, Repr

/-- The allocated task nodes: `none` at an address means no live block. -/
abbrev Heap := Nat → Option task_t

/-- Store into the heap (`some` node) or release a block (`none`). -/
def Heap.set (h : Heap) (a : Nat) (v : Option task_t) : Heap :=
  fun x => if x = a then v else h x

/-- The heap with no live block. -/
def Heap.empty : Heap := fun _ => none

/-- The job queue (lines 17-21).  `queue_mutex` is declared by the source but
never used. -/
structure task_queue_t where
  head : Option Nat
  tail : Option Nat
deriving DecidableEq, Repr

/-- The pool (lines 28-35): the fields read and written by the code.  The
thread ids, the mutex and the condition variable are carried by the machine
state below. -/
structure thpool_t where
  size : Int
  shutdown : Int
  queue : task_queue_t
deriving DecidableEq, Repr

/-! ## Task queue (lines 42-75) -/

/-- Lines 42-44: `queue->head == NULL`. -/
def task_queue_empty (q : task_queue_t) : Bool :=
  q.head == none

/-- Lines 51-60.  `none` when the code would dereference `NULL` or a pointer
to no live block. -/
def task_queue_add (h : Heap) (q : task_queue_t) (task : Nat) :
    Option (Heap × task_queue_t) :=
  let linked : Option (Heap × task_queue_t) :=
    if task_queue_empty q then
      some (h, { head := some task, tail := some task })
    else
      match q.tail with
      | none => none
      | some tl =>
        match h tl with
        | none => none
        | some n => some (h.set tl (some { n with next := some task }),
                          { q with tail := some task })
  match linked with
  | none => none
  | some (h1, q1) =>
    match h1 task with
    | none => none
    | some t => some (h1.set task (some { t with next := none }), q1)

/-- Lines 67-75: the new queue and the returned pointer.  `none` when the code
would dereference `NULL` or a pointer to no live block. -/
def task_queue_pull (h : Heap) (q : task_queue_t) :
    Option (task_queue_t × Option Nat) :=
  let cur := q.head
  if q.head = q.tail then
    some ({ head := none, tail := none }, cur)
  else
    match cur with
    | none => none
    | some c =>
      match h c with
      | none => none
      | some n => some ({ q with head := n.next }, cur)

/-- The `(func, arg)` pair stored at an address (`(0, 0)` for no live block). -/
def task_at (h : Heap) (a : Nat) : Nat × Nat :=
  match h a with
  | some t => (t.func, t.arg)
  | none => (0, 0)

/-- The `(func, arg)` pairs of a list of nodes. -/
def contents (h : Heap) (ns : List Nat) : List (Nat × Nat) :=
  ns.map (task_at h)

/-! ## Events

Every library call that matters to the claims is recorded, in program order,
in a list of events. -/

/-- The calls made by the pool code, with their outcome where they have one. -/
inductive Event
  | malloc_pool (ok : Bool)
  | malloc_threads (bytes : Nat) (ok : Bool)
  | mutex_init (rc : Int)
  | cond_init (rc : Int)
  | lock
  | unlock
  | wait_release
  | wait_acquire
  | signal
  | broadcast
  | spawn (i : Nat) (rc : Int)
  | join (i : Nat) (rc : Int)
  | set_shutdown
  | cond_destroy
  | mutex_destroy
  | free_threads
  | free_pool
  | enqueue (task func arg : Nat)
  | dequeue (task func arg : Nat)
  | exec (task func arg : Nat)
deriving DecidableEq, Repr

/-! ## `thpool_create` (lines 124-181) -/

/-- The outcomes of the library calls made by `thpool_create`.
`pool_mem` is `malloc(sizeof(thpool_t))`: `none` for `NULL`, otherwise the
block with whatever it contains (`malloc` does not clear memory).
`threads_mem n` tells whether `malloc(n)` for the thread-id array succeeds;
`spawn i` is the return code of the `i`-th `pthread_create`. -/
structure CreateEnv where
  pool_mem : Option thpool_t
  threads_mem : Nat → Bool
  mutex_init : Int
  cond_init : Int
  spawn : Nat → Int

/-- Lines 159-166, `for (i = 0; i < size; i++)` with the given number of
iterations left.  The result is `none` after the `goto error_c4`. -/
def spawn_loop (env : CreateEnv) : Nat → Nat → thpool_t → List Event × Option thpool_t
  | 0, _, pool => ([], some pool)
  | n + 1, i, pool =>
    if env.spawn i ≠ 0 then
      ([Event.spawn i (env.spawn i), Event.unlock], none)
    else
      let r := spawn_loop env n (i + 1) { pool with size := pool.size + 1 }
      (Event.spawn i (env.spawn i) :: r.1, r.2)

/-- The argument of `malloc` at line 142: `sizeof(pthread_t) * size` computed
in the 64-bit unsigned `size_t`, the `int` being converted first. -/
def threads_bytes (sizeof_pthread_t : Nat) (size : Int) : Nat :=
  (sizeof_pthread_t * (size % 2 ^ 64).toNat) % 2 ^ 64

/-- Lines 124-181.  `sizeof_pthread_t` is the platform's `sizeof(pthread_t)`.
The result is the list of calls made and the returned pool (`none` for
`NULL`). -/
def thpool_create (sizeof_pthread_t : Nat) (env : CreateEnv) (size : Int) :
    List Event × Option thpool_t :=
  match env.pool_mem with
  | none => ([Event.malloc_pool false], none)
  | some raw =>
    let pool : thpool_t := { raw with shutdown := 0, queue := { head := none, tail := none } }
    let bytes := threads_bytes sizeof_pthread_t size
    if env.threads_mem bytes = false then
      ([Event.malloc_pool true, Event.malloc_threads bytes false, Event.free_pool], none)
    else if env.mutex_init ≠ 0 then
      ([Event.malloc_pool true, Event.malloc_threads bytes true,
        Event.mutex_init env.mutex_init, Event.free_threads, Event.free_pool], none)
    else if env.cond_init ≠ 0 then
      ([Event.malloc_pool true, Event.malloc_threads bytes true,
        Event.mutex_init env.mutex_init, Event.cond_init env.cond_init,
        Event.mutex_destroy, Event.free_threads, Event.free_pool], none)
    else
      let pre := [Event.malloc_pool true, Event.malloc_threads bytes true,
        Event.mutex_init env.mutex_init, Event.cond_init env.cond_init, Event.lock]
      match spawn_loop env size.toNat 0 pool with
      | (evs, none) =>
        (pre ++ evs ++ [Event.cond_destroy, Event.mutex_destroy, Event.free_threads,
          Event.free_pool], none)
      | (evs, some p) => (pre ++ evs ++ [Event.unlock], some p)

/-! ## `thpool_add` (lines 237-262) -/

/-- The outcome of one `thpool_add` call. -/
structure AddResult where
  heap : Heap
  pool : thpool_t
  rc : Int
  events : List Event

/-- Lines 237-262.  `mem` is the outcome of `malloc(sizeof(task_t))`: `none`
for `NULL`, otherwise the address of the block and the pointer its `next`
field happens to hold.  The result is `none` when `mem` is not a possible
outcome (the block is already live) or when the queue code faults. -/
def thpool_add (h : Heap) (pool : thpool_t) (func arg : Nat)
    (mem : Option (Nat × Option Nat)) : Option AddResult :=
  match mem with
  | none => some { heap := h, pool := pool, rc := -1, events := [] }
  | some (task, junk) =>
    if h task ≠ none then none
    else
      let h1 := h.set task (some { func := func, arg := arg, next := junk })
      if pool.shutdown ≠ 0 then
        some { heap := h1.set task none, pool := pool, rc := -1,
               events := [Event.lock, Event.unlock] }
      else
        match task_queue_add h1 pool.queue task with
        | none => none
        | some (h2, q) =>
          some { heap := h2, pool := { pool with queue := q }, rc := 0,
                 events := [Event.lock, Event.enqueue task func arg, Event.signal,
                   Event.unlock] }

/-! ## The worker loop and `thpool_destroy` as a machine -/

/-- Where a worker is in `thpool_thread` (lines 82-116): about to lock at
line 87, blocked in `pthread_cond_wait` at line 89, past the unlock of line
101 with the pointer returned by `task_queue_pull`, or returned. -/
inductive WorkerPc
  | top
  | waiting
  | running (task : Option Nat)
  | exited
deriving DecidableEq, Repr

/-- Where `thpool_destroy` is (lines 187-229): not called, in the join loop of
lines 209-215 with the value of `cur_size` and of `i`, or returned with the
value of `error`. -/
inductive DestroyPc
  | idle
  | joining (cur_size : Int) (i : Nat)
  | returned (error : Int)
deriving DecidableEq, Repr

/-- The threads of the machine. -/
inductive Tid
  | worker (i : Nat)
  | producer (p : Nat)
  | destroyer
deriving DecidableEq, Repr

/-- The machine state: the task heap, the pool fields, the workers in the
order of `pool->threads`, the progress of `thpool_destroy`, and the events so
far with the thread that made them, oldest first. -/
structure State where
  heap : Heap
  pool : thpool_t
  workers : List WorkerPc
  destroy : DestroyPc
  trace : List (Tid × Event)

/-- Lines 88-101 and 111-112, run with the mutex held: one evaluation of the
`while` condition and what follows it up to the next release of the mutex. -/
def thpool_thread_locked (h : Heap) (pool : thpool_t) :
    Option (thpool_t × WorkerPc × List Event) :=
  if task_queue_empty pool.queue && pool.shutdown == 0 then
    some (pool, WorkerPc.waiting, [Event.wait_release])
  else if pool.shutdown ≠ 0 then
    some ({ pool with size := pool.size - 1 }, WorkerPc.exited, [Event.unlock])
  else
    match task_queue_pull h pool.queue with
    | none => none
    | some (q, task) =>
      some ({ pool with queue := q }, WorkerPc.running task,
        (match task with
         | some t => [Event.dequeue t (task_at h t).1 (task_at h t).2]
         | none => []) ++ [Event.unlock])

/-- Lines 104-109: call the task if there is one, then free the node. -/
def thpool_thread_run (h : Heap) (task : Option Nat) : Option (Heap × List Event) :=
  match task with
  | none => some (h, [])
  | some t =>
    match h t with
    | none => none
    | some n => some (h.set t none, [Event.exec t n.func n.arg])

/-- Lines 193-198: free every node from `cur` on.  The first argument bounds
the number of iterations; `none` when it is exceeded or when a node is not a
live block. -/
def thpool_destroy_drain : Nat → Heap → Option Nat → Option Heap
  | _, h, none => some h
  | 0, _, some _ => none
  | fuel + 1, h, some c =>
    match h c with
    | none => none
    | some n => thpool_destroy_drain fuel (h.set c none) n.next

/-- Lines 222-228. -/
def thpool_destroy_exit : List Event :=
  [Event.unlock, Event.cond_destroy, Event.mutex_destroy, Event.free_threads,
    Event.free_pool]

/-- Line 205 with the mutex held: enter the loop body up to the unlock of line
208, or leave the loop and finish. -/
def thpool_destroy_loop (pool : thpool_t) : DestroyPc × List Event :=
  if pool.size > 0 then
    (DestroyPc.joining pool.size 0, [Event.broadcast, Event.unlock])
  else
    (DestroyPc.returned 0, thpool_destroy_exit)

/-- The moves of the machine.
* `add p func arg mem`: producer `p` runs `thpool_add`.
* `worker i`: worker `i` runs its next block: from line 87 or from the wake-up
  of line 89 to the next release of the mutex, or lines 104-109.
* `destroy fuel`: `thpool_destroy` runs lines 192-208 (to 228 if the counter
  is not positive).
* `join rc`: the `pthread_join` of line 211 returns `rc`; it can return `0`
  only for a worker that has returned.
* `relock`: the lock of line 220 and the loop test after it. -/
inductive Action
  | add (p func arg : Nat) (mem : Option (Nat × Option Nat))
  | worker (i : Nat)
  | destroy (fuel : Nat)
  | join (rc : Int)
  | relock
deriving DecidableEq, Repr

/-- Tag events with their thread. -/
def tag (t : Tid) (evs : List Event) : List (Tid × Event) :=
  evs.map (fun e => (t, e))

/-- Worker `i` acquires the mutex with `first` (`lock`, or the re-acquisition
inside `pthread_cond_wait`) and runs `thpool_thread_locked`. -/
def thpool_thread_sync (s : State) (i : Nat) (first : Event) : Option State :=
  match thpool_thread_locked s.heap s.pool with
  | none => none
  | some (pool, pc, evs) =>
    some { s with pool := pool, workers := s.workers.set i pc,
                  trace := s.trace ++ tag (Tid.worker i) (first :: evs) }

/-- One move of the machine; `none` when the move is not possible in the
state. -/
def step (s : State) : Action → Option State
  | Action.add p func arg mem =>
    match thpool_add s.heap s.pool func arg mem with
    | none => none
    | some r =>
      some { s with heap := r.heap, pool := r.pool,
                    trace := s.trace ++ tag (Tid.producer p) r.events }
  | Action.worker i =>
    match s.workers[i]? with
    | some WorkerPc.top => thpool_thread_sync s i Event.lock
    | some WorkerPc.waiting => thpool_thread_sync s i Event.wait_acquire
    | some (WorkerPc.running task) =>
      match thpool_thread_run s.heap task with
      | none => none
      | some (h, evs) =>
        some { s with heap := h, workers := s.workers.set i WorkerPc.top,
                      trace := s.trace ++ tag (Tid.worker i) evs }
    | _ => none
  | Action.destroy fuel =>
    match s.destroy with
    | DestroyPc.idle =>
      match thpool_destroy_drain fuel s.heap s.pool.queue.head with
      | none => none
      | some h =>
        let pool : thpool_t :=
          { s.pool with queue := { head := none, tail := none }, shutdown := 1 }
        let r := thpool_destroy_loop pool
        some { s with heap := h, pool := pool, destroy := r.1,
                      trace := s.trace ++
                        tag Tid.destroyer (Event.lock :: Event.set_shutdown :: r.2) }
    | _ => none
  | Action.join rc =>
    match s.destroy with
    | DestroyPc.joining cur i =>
      if (i : Int) < cur then
        if rc ≠ 0 then
          some { s with destroy := DestroyPc.returned 1,
                        trace := s.trace ++
                          tag Tid.destroyer (Event.join i rc :: thpool_destroy_exit) }
        else if s.workers[i]? = some WorkerPc.exited then
          some { s with destroy := DestroyPc.joining cur (i + 1),
                        trace := s.trace ++ tag Tid.destroyer [Event.join i rc] }
        else none
      else none
    | _ => none
  | Action.relock =>
    match s.destroy with
    | DestroyPc.joining cur i =>
      if (i : Int) < cur then none
      else
        let r := thpool_destroy_loop s.pool
        some { s with destroy := r.1,
                      trace := s.trace ++ tag Tid.destroyer (Event.lock :: r.2) }
    | _ => none

/-- Run a list of moves. -/
def run (s : State) : List Action → Option State
  | [] => some s
  | a :: rest =>
    match step s a with
    | none => none
    | some s1 => run s1 rest

/-- The machine state when `thpool_create` has returned `pool` after spawning
`n` workers: every worker is at the top of its loop. -/
def init_state (h : Heap) (pool : thpool_t) (n : Nat) : State :=
  { heap := h, pool := pool, workers := List.replicate n WorkerPc.top,
    destroy := DestroyPc.idle, trace := [] }

/-! ## Observations on traces -/

/-- The events of one thread. -/
def events_of (t : Tid) (tr : List (Tid × Event)) : List Event :=
  (tr.filter (fun e => e.1 = t)).map (fun e => e.2)

/-- Follow the mutex through the events of one thread, from `held`: `none` as
soon as the thread locks a mutex it holds or releases one it does not hold,
otherwise whether it holds the mutex at the end. -/
def lock_walk : Bool → List Event → Option Bool
  | held, [] => some held
  | held, Event.lock :: rest => if held then none else lock_walk true rest
  | held, Event.wait_acquire :: rest => if held then none else lock_walk true rest
  | held, Event.unlock :: rest => if held then lock_walk false rest else none
  | held, Event.wait_release :: rest => if held then lock_walk false rest else none
  | held, _ :: rest => lock_walk held rest

/-- The tasks accepted by `thpool_add`, in order. -/
def submitted (tr : List (Tid × Event)) : List (Nat × Nat) :=
  tr.filterMap (fun e =>
    match e.2 with
    | Event.enqueue _ f a => some (f, a)
    | _ => none)

/-- The tasks accepted by `thpool_add` from producer `p`, in order. -/
def submitted_by (p : Nat) (tr : List (Tid × Event)) : List (Nat × Nat) :=
  submitted (tr.filter (fun e => e.1 = Tid.producer p))

/-- The tasks returned by the workers' `task_queue_pull`, in order. -/
def dequeued (tr : List (Tid × Event)) : List (Nat × Nat) :=
  tr.filterMap (fun e =>
    match e.2 with
    | Event.dequeue _ f a => some (f, a)
    | _ => none)

/-- The tasks whose callable was invoked, in order. -/
def executed (tr : List (Tid × Event)) : List (Nat × Nat) :=
  tr.filterMap (fun e =>
    match e.2 with
    | Event.exec _ f a => some (f, a)
    | _ => none)

/-- The task a worker has taken from the queue and not yet run, if any. -/
def inflight (h : Heap) : WorkerPc → List (Nat × Nat)
  | WorkerPc.running (some a) => [task_at h a]
  | _ => []

/-- The number of workers that have not returned. -/
def live_count (ws : List WorkerPc) : Int :=
  (ws.filter (fun pc => pc ≠ WorkerPc.exited)).length

/-! ## Representation of the queue as a list of nodes -/

/-- The nodes reached from pointer `p` by following `next` are exactly `ns`,
and the last one has no successor. -/
def chain (h : Heap) : Option Nat → List Nat → Prop
  | p, [] => p = none
  | p, a :: rest => p = some a ∧ ∃ t, h a = some t ∧ chain h t.next rest

/-- The queue invariant: `head` is `NULL` iff `tail` is `NULL`, and `tail` is
the last node of the `next`-chain that starts at `head` and ends in `NULL`. -/
def queue_inv (h : Heap) (q : task_queue_t) : Prop :=
  (q.head = none ↔ q.tail = none) ∧
    ∃ ns, chain h q.head ns ∧ q.tail = ns.getLast?

/-! ## Predicates and invariants used by the theorems -/

/-- Every resource acquired in the list of calls is released in it: the pool
block, the thread-id array, the mutex and the condition variable. -/
def leak_free (evs : List Event) : Prop :=
  (Event.malloc_pool true ∈ evs → Event.free_pool ∈ evs) ∧
  ((∃ b, Event.malloc_threads b true ∈ evs) → Event.free_threads ∈ evs) ∧
  (Event.mutex_init 0 ∈ evs → Event.mutex_destroy ∈ evs) ∧
  (Event.cond_init 0 ∈ evs → Event.cond_destroy ∈ evs)

/-- The structural invariant, for the list `ns` of queued nodes: the queue is
the chain `ns`; a node held by a worker is live and not queued; no two workers
hold the same node. -/
structure Inv (s : State) (ns : List Nat) : Prop where
  hchain : chain s.heap s.pool.queue.head ns
  htail : s.pool.queue.tail = ns.getLast?
  hown : ∀ (i a : Nat), s.workers[i]? = some (WorkerPc.running (some a)) →
    s.heap a ≠ none ∧ a ∉ ns
  hdistinct : ∀ (i j a : Nat), s.workers[i]? = some (WorkerPc.running (some a)) →
    s.workers[j]? = some (WorkerPc.running (some a)) → i = j

/-- The counter invariant: `pool->size` is the number of workers that have
not returned, and `thpool_destroy` has returned without a failed join only
with a counter that is not positive. -/
def Counted (s : State) : Prop :=
  s.pool.size = live_count s.workers ∧
    (s.destroy = DestroyPc.returned 0 → s.pool.size ≤ 0)

/-- The history invariant, for the list `ns` of queued nodes.
`fifo`: while `thpool_destroy` has not been called, the tasks accepted so far
are, in order, those dequeued so far followed by those still queued.
`single`: with one worker, the tasks dequeued so far are, in order, those
already run followed by the one the worker holds, if any. -/
structure Hist (s : State) (ns : List Nat) : Prop where
  fifo : s.destroy = DestroyPc.idle →
    submitted s.trace = dequeued s.trace ++ contents s.heap ns
  single : ∀ pc, s.workers = [pc] →
    dequeued s.trace = executed s.trace ++ inflight s.heap pc

/-- Whether an event is an enqueue. -/
def is_enqueue : Event → Bool
  | Event.enqueue _ _ _ => true
  | _ => false

/-- Every enqueue of the trace was made by a producer numbered below `P`. -/
def enqueues_below (P : Nat) (tr : List (Tid × Event)) : Prop :=
  ∀ e ∈ tr, is_enqueue e.2 = true → ∃ p, p < P ∧ e.1 = Tid.producer p

/-- Whether a move is a call of `thpool_destroy`. -/
def is_destroy : Action → Bool
  | Action.destroy _ => true
  | _ => false

/-- Whether a move is not a `thpool_add` by a producer numbered `P` or more. -/
def producer_below (P : Nat) : Action → Bool
  | Action.add p _ _ _ => decide (p < P)
  | _ => true

/-- The state reached by a run (the starting state if a move is impossible). -/
def run_or (s : State) (acts : List Action) : State :=
  (run s acts).getD s

/-- The state `s` relative to an earlier state `b` in which the shutdown flag
was already set: the flag is still set, `thpool_destroy` has been called, a
worker that holds a node held the same node, with the same content, in `b`,
and every call made since `b` is the call, by a worker, of the task it held
in `b`. -/
structure Post (b s : State) : Prop where
  hshut : s.pool.shutdown ≠ 0
  hcalled : s.destroy ≠ DestroyPc.idle
  hheld : ∀ (i a : Nat), s.workers[i]? = some (WorkerPc.running (some a)) →
    b.workers[i]? = some (WorkerPc.running (some a)) ∧ s.heap a = b.heap a
  hexec : ∃ new, s.trace = b.trace ++ new ∧
    ∀ t task f x, (t, Event.exec task f x) ∈ new →
      ∃ i, t = Tid.worker i ∧ b.workers[i]? = some (WorkerPc.running (some task)) ∧
        task_at b.heap task = (f, x)

/-- Whether an event tells a worker to stop or waits for one: setting the
shutdown flag, signalling or broadcasting the condition, joining. -/
def is_stop_event : Event → Bool
  | Event.set_shutdown => true
  | Event.signal => true
  | Event.broadcast => true
  | Event.join _ _ => true
  | _ => false

/-- Whether a move is not a failing `pthread_join`. -/
def join_succeeds : Action → Bool
  | Action.join rc => decide (rc = 0)
  | _ => true

/-- Every thread's calls so far lock and unlock the mutex in turn, and leave
it released. -/
def lock_ok (tr : List (Tid × Event)) : Prop :=
  ∀ t, lock_walk false (events_of t tr) = some false

/-! ## Concrete pools, environments and runs -/

/-- A pool with one queued task, already shut down. -/
def closed_pool : thpool_t :=
  { size := 2, shutdown := 1, queue := { head := some 1, tail := some 1 } }

/-- A heap with one live node at address 1. -/
def heap_one : Heap :=
  Heap.empty.set 1 (some { func := 10, arg := 100, next := none })

/-- A heap with two linked nodes, 1 then 2, and a third live node that is not
linked to them and whose `next` field holds an arbitrary pointer. -/
def heap_three : Heap :=
  ((Heap.empty.set 1 (some { func := 10, arg := 100, next := some 2 })).set 2
    (some { func := 11, arg := 101, next := none })).set 3
    (some { func := 12, arg := 102, next := some 1 })

/-- An environment in which every call of `thpool_create` succeeds; `raw` is
the content of the block returned for the pool. -/
def env_ok (raw : thpool_t) : CreateEnv :=
  { pool_mem := some raw, threads_mem := fun _ => true, mutex_init := 0, cond_init := 0,
    spawn := fun _ => 0 }

/-- An environment in which the allocator refuses requests of `2 ^ 63` bytes
or more and every other call succeeds. -/
def env_bounded (raw : thpool_t) : CreateEnv :=
  { pool_mem := some raw, threads_mem := fun n => decide (n < 2 ^ 63), mutex_init := 0,
    cond_init := 0, spawn := fun _ => 0 }

/-- An environment in which the `pthread_create` of index `k` fails with code
11 and every other call succeeds. -/
def env_spawn_fails (raw : thpool_t) (k : Nat) : CreateEnv :=
  { pool_mem := some raw, threads_mem := fun _ => true, mutex_init := 0, cond_init := 0,
    spawn := fun i => if i = k then 11 else 0 }

/-- A pool block whose fields hold arbitrary values, the counter holding `g`. -/
def raw_block (g : Int) : thpool_t :=
  { size := g, shutdown := 7, queue := { head := some 3, tail := none } }

/-- A created pool with `n` workers and a counter that was set to `n`. -/
def pool_of (n : Nat) : thpool_t :=
  { size := n, shutdown := 0, queue := { head := none, tail := none } }

/-- Two producers submit one task each to a pool of two workers. -/
def two_producers : List Action :=
  [Action.add 0 10 100 (some (1, some 9)), Action.worker 0,
   Action.add 1 11 101 (some (2, none)), Action.worker 1, Action.worker 0,
   Action.worker 1]

/-- Three tasks are submitted to a pool with one worker, which takes the
first one while the others are being submitted. -/
def three_submits : List Action :=
  [Action.add 0 10 100 (some (1, some 9)), Action.worker 0,
   Action.add 0 11 101 (some (2, none)), Action.add 0 12 102 (some (3, none))]

/-- Three tasks are submitted to a pool with two workers; worker 0 dequeues
the first one; the other two are still queued. -/
def two_queued : List Action :=
  [Action.add 0 10 100 (some (1, some 9)), Action.add 0 11 101 (some (2, none)),
   Action.add 0 12 102 (some (3, none)), Action.worker 0]

/-! # Theorems -/

/-! ### Heap lemmas -/

@[simp] theorem Heap.set_same (h : Heap) (a : Nat) (v : Option task_t) :
    h.set a v a = v := by
  simp [Heap.set]

theorem Heap.set_other (h : Heap) {a x : Nat} (v : Option task_t) (hx : x ≠ a) :
    h.set a v x = h x := by
  simp [Heap.set, hx]

theorem Heap.set_set_none (h : Heap) (a : Nat) (v : Option task_t) (hf : h a = none) :
    (h.set a v).set a none = h := by
  funext x
  by_cases hx : x = a
  · subst hx; simp [Heap.set, hf]
  · simp [Heap.set, hx]

/-! ### Chain lemmas -/

theorem chain_frame {h h' : Heap} : ∀ {ns : List Nat} {p : Option Nat},
    chain h p ns → (∀ a ∈ ns, h' a = h a) → chain h' p ns
  | [], _, hc, _ => hc
  | a :: rest, _, ⟨hp, t, ht, hc⟩, hf =>
    ⟨hp, t, by rw [hf a (List.mem_cons_self a rest)]; exact ht,
      chain_frame hc (fun b hb => hf b (List.mem_cons_of_mem a hb))⟩

theorem chain_alloc {h : Heap} : ∀ {ns : List Nat} {p : Option Nat},
    chain h p ns → ∀ a ∈ ns, h a ≠ none
  | [], _, _, a, ha => by cases ha
  | b :: rest, _, ⟨_, t, ht, hc⟩, a, ha => by
    rcases List.mem_cons.mp ha with rfl | ha'
    · rw [ht]; simp
    · exact chain_alloc hc a ha'

theorem chain_unique {h : Heap} : ∀ {ns ms : List Nat} {p : Option Nat},
    chain h p ns → chain h p ms → ns = ms
  | [], [], _, _, _ => rfl
  | [], b :: _, _, h1, h2 => by
    have h1' : _ = none := h1
    rw [h1'] at h2
    cases h2.1
  | a :: _, [], _, h1, h2 => by
    have h2' : _ = none := h2
    rw [h2'] at h1
    cases h1.1
  | a :: r1, b :: r2, p, ⟨hp1, t1, ht1, hc1⟩, ⟨hp2, t2, ht2, hc2⟩ => by
    have hab : a = b := by
      rw [hp1] at hp2
      exact Option.some.inj hp2
    subst hab
    rw [ht1] at ht2
    cases ht2
    rw [chain_unique hc1 hc2]

/-- A chain that ends in `NULL` visits no node twice. -/
theorem chain_nodup {h : Heap} : ∀ {ns : List Nat} {p : Option Nat},
    chain h p ns → ns.Nodup
  | [], _, _ => List.nodup_nil
  | a :: rest, _, ⟨hp, t, ht, hc⟩ => by
    refine List.nodup_cons.mpr ⟨?_, chain_nodup hc⟩
    intro hmem
    -- a suffix of `rest` starting at `a` is a chain from `a`, as is `a :: rest`
    have key : ∀ (l : List Nat) (q : Option Nat), chain h q l → a ∈ l →
        ∃ m, chain h (some a) m ∧ m.length ≤ l.length := by
      intro l
      induction l with
      | nil => intro q _ hm; cases hm
      | cons b l ih =>
        intro q hq hm
        obtain ⟨hq1, t2, ht2, hq2⟩ := hq
        rcases List.mem_cons.mp hm with hab | hm'
        · subst hab
          exact ⟨a :: l, ⟨rfl, t2, ht2, hq2⟩, le_refl _⟩
        · obtain ⟨m, hm1, hm2⟩ := ih _ hq2 hm'
          exact ⟨m, hm1, Nat.le_succ_of_le hm2⟩
    obtain ⟨m, hm1, hm2⟩ := key rest _ hc hmem
    have hfull : chain h (some a) (a :: rest) := ⟨rfl, t, ht, hc⟩
    have := chain_unique hm1 hfull
    subst this
    simp at hm2

theorem getLast?_mem_of_eq {ns : List Nat} {tl : Nat} (hl : ns.getLast? = some tl) :
    tl ∈ ns :=
  List.mem_of_getLast?_eq_some hl

/-- Appending a node: after `tail->next = task; task->next = NULL` the chain
is the old one followed by `task`. -/
theorem chain_snoc {h : Heap} {task tl : Nat} {n t : task_t} (hn : h tl = some n) :
    ∀ {ns : List Nat} {p : Option Nat}, chain h p ns → ns.getLast? = some tl →
      task ∉ ns →
      chain ((h.set tl (some { n with next := some task })).set task
        (some { t with next := none })) p (ns ++ [task])
  | [], _, _, hl, _ => by simp at hl
  | [a], p, ⟨hp, t0, ht0, _⟩, hl, hm => by
    have hat : a = tl := by simpa using hl
    subst hat
    have hne : a ≠ task := fun e => hm (by simp [e])
    refine ⟨hp, { n with next := some task }, ?_, rfl, { t with next := none }, ?_, rfl⟩
    · rw [Heap.set_other _ _ hne]; simp
    · simp
  | a :: b :: r, p, hc, hl, hm => by
    have hnd := chain_nodup hc
    obtain ⟨hp, t0, ht0, hc'⟩ := hc
    have hl' : (b :: r).getLast? = some tl := by simpa using hl
    have htl : tl ∈ b :: r := getLast?_mem_of_eq hl'
    have hatl : a ≠ tl := by
      intro e
      subst e
      exact (List.nodup_cons.mp hnd).1 htl
    have hat : a ≠ task := fun e => hm (by simp [e])
    have hm' : task ∉ b :: r := fun hx => hm (List.mem_cons_of_mem a hx)
    refine ⟨hp, t0, ?_, chain_snoc hn hc' hl' hm'⟩
    rw [Heap.set_other _ _ hat, Heap.set_other _ _ hatl]
    exact ht0

/-- What `task_queue_add` does to a well-formed queue with nodes `ns`, given
a live node `task` that is not in the queue. -/
theorem task_queue_add_spec {h : Heap} {q : task_queue_t} {ns : List Nat}
    {task : Nat} {t : task_t}
    (hc : chain h q.head ns) (htl : q.tail = ns.getLast?)
    (ht : h task = some t) (hm : task ∉ ns) :
    ∃ h1 q1, task_queue_add h q task = some (h1, q1) ∧
      chain h1 q1.head (ns ++ [task]) ∧ q1.tail = some task ∧
      h1 task = some { t with next := none } ∧
      (∀ x, x ≠ task → x ∉ ns → h1 x = h x) ∧
      (∀ x, x ≠ task → task_at h1 x = task_at h x) ∧
      (∀ x, h1 x = none ↔ h x = none) := by
  cases ns with
  | nil =>
    have hh : q.head = none := hc
    refine ⟨h.set task (some { t with next := none }), ⟨some task, some task⟩, ?_, ?_, rfl,
      by simp, ?_, ?_, ?_⟩
    · simp [task_queue_add, task_queue_empty, hh, ht]
    · exact ⟨rfl, _, Heap.set_same _ _ _, rfl⟩
    · intro x hx _; exact Heap.set_other _ _ hx
    · intro x hx; simp [task_at, Heap.set_other _ _ hx]
    · intro x
      by_cases hx : x = task
      · subst hx; simp [ht]
      · rw [Heap.set_other _ _ hx]
  | cons a r =>
    have hh : q.head = some a := hc.1
    obtain ⟨tl, hl⟩ : ∃ tl, (a :: r).getLast? = some tl := by
      cases hg : (a :: r).getLast? with
      | none => simp at hg
      | some tl => exact ⟨tl, rfl⟩
    have htlm : tl ∈ a :: r := getLast?_mem_of_eq hl
    obtain ⟨n, hn⟩ : ∃ n, h tl = some n := by
      cases hg : h tl with
      | none => exact absurd hg (chain_alloc hc tl htlm)
      | some n => exact ⟨n, rfl⟩
    have hne : tl ≠ task := fun e => hm (e ▸ htlm)
    have hne' : task ≠ tl := fun e => hne e.symm
    have h1t : (h.set tl (some { n with next := some task })) task = some t := by
      rw [Heap.set_other _ _ hne']; exact ht
    refine ⟨(h.set tl (some { n with next := some task })).set task
        (some { t with next := none }), { q with tail := some task }, ?_, ?_, rfl,
      by simp, ?_, ?_, ?_⟩
    · simp [task_queue_add, task_queue_empty, hh, htl, hl, hn, h1t]
    · exact chain_snoc hn hc hl hm
    · intro x hx hxn
      have hxt : x ≠ tl := fun e => hxn (e ▸ htlm)
      rw [Heap.set_other _ _ hx, Heap.set_other _ _ hxt]
    · intro x hx
      by_cases hxt : x = tl
      · subst hxt
        simp [task_at, Heap.set_other _ _ hx, hn]
      · simp [task_at, Heap.set_other _ _ hx, Heap.set_other _ _ hxt]
    · intro x
      by_cases hx : x = task
      · subst hx; simp [ht]
      · rw [Heap.set_other _ _ hx]
        by_cases hxt : x = tl
        · subst hxt; simp [hn]
        · rw [Heap.set_other _ _ hxt]

/-- What `task_queue_pull` does to a well-formed queue with nodes `ns`. -/
theorem task_queue_pull_spec {h : Heap} {q : task_queue_t} {ns : List Nat}
    (hc : chain h q.head ns) (htl : q.tail = ns.getLast?) :
    ∃ q1, task_queue_pull h q = some (q1, ns.head?) ∧
      chain h q1.head ns.tail ∧ q1.tail = ns.tail.getLast? := by
  match ns, hc, htl with
  | [], hc, htl =>
    have hh : q.head = none := hc
    have ht : q.tail = none := by simpa using htl
    exact ⟨⟨none, none⟩, by simp [task_queue_pull, hh, ht], rfl, rfl⟩
  | [a], hc, htl =>
    have hh : q.head = some a := hc.1
    have ht : q.tail = some a := by simpa using htl
    exact ⟨⟨none, none⟩, by simp [task_queue_pull, hh, ht], rfl, rfl⟩
  | a :: b :: r, hc, htl =>
    have hnd := chain_nodup hc
    have hh : q.head = some a := hc.1
    obtain ⟨_, t, ht, hc'⟩ := hc
    have ht' : q.tail = (b :: r).getLast? := by simpa using htl
    have hne : q.head ≠ q.tail := by
      rw [hh, ht']
      intro e
      have : a ∈ b :: r := getLast?_mem_of_eq e.symm
      exact (List.nodup_cons.mp hnd).1 this
    have hne2 : ¬ some a = q.tail := by rw [← hh]; exact hne
    refine ⟨{ q with head := t.next }, ?_, hc', ht'⟩
    simp [task_queue_pull, hh, ht, hne2]

/-- The loop of lines 193-198 frees exactly the nodes of the chain, given at
least as many iterations as there are nodes. -/
theorem thpool_destroy_drain_spec :
    ∀ (ns : List Nat) (fuel : Nat) (h : Heap) (p : Option Nat),
    chain h p ns → ns.length ≤ fuel →
    ∃ h1, thpool_destroy_drain fuel h p = some h1 ∧ (∀ a ∈ ns, h1 a = none) ∧
      (∀ a, a ∉ ns → h1 a = h a)
  | [], fuel, h, p, hc, _ => by
    have hp : p = none := hc
    subst hp
    refine ⟨h, ?_, by simp, fun _ _ => rfl⟩
    cases fuel <;> rfl
  | a :: rest, 0, _, _, _, hf => by simp at hf
  | a :: rest, fuel + 1, h, p, hc, hf => by
    have hnd := chain_nodup hc
    obtain ⟨hp, t, ht, hc1⟩ := hc
    subst hp
    have hnot : a ∉ rest := (List.nodup_cons.mp hnd).1
    have hc2 : chain (h.set a none) t.next rest :=
      chain_frame hc1 (fun b hb => Heap.set_other _ _ (fun e => hnot (e ▸ hb)))
    obtain ⟨h1, hd, hfree, hkeep⟩ :=
      thpool_destroy_drain_spec rest fuel (h.set a none) t.next hc2 (by simpa using hf)
    refine ⟨h1, by simp [thpool_destroy_drain, ht, hd], ?_, ?_⟩
    · intro b hb
      rcases List.mem_cons.mp hb with rfl | hb1
      · rw [hkeep _ hnot]; simp
      · exact hfree b hb1
    · intro b hb
      have hb1 : b ∉ rest := fun e => hb (List.mem_cons_of_mem a e)
      have hb2 : b ≠ a := fun e => hb (by simp [e])
      rw [hkeep b hb1, Heap.set_other _ _ hb2]

/-- The outcomes of `thpool_add` on a well-formed queue with nodes `ns`:
either nothing changes and the call fails, or the new node is appended. -/
theorem thpool_add_spec {h : Heap} {pool : thpool_t} {ns : List Nat} {f x : Nat}
    {mem : Option (Nat × Option Nat)} {r : AddResult}
    (hc : chain h pool.queue.head ns) (htl : pool.queue.tail = ns.getLast?)
    (hr : thpool_add h pool f x mem = some r) :
    (r.rc = -1 ∧ r.heap = h ∧ r.pool = pool ∧ (mem = none ∨ pool.shutdown ≠ 0) ∧
        (r.events = [] ∨ r.events = [Event.lock, Event.unlock])) ∨
    (∃ task junk, mem = some (task, junk) ∧ h task = none ∧ pool.shutdown = 0 ∧
      r.rc = 0 ∧
      r.events = [Event.lock, Event.enqueue task f x, Event.signal, Event.unlock] ∧
      r.pool.size = pool.size ∧ r.pool.shutdown = pool.shutdown ∧
      chain r.heap r.pool.queue.head (ns ++ [task]) ∧
      r.pool.queue.tail = some task ∧ task ∉ ns ∧
      task_at r.heap task = (f, x) ∧
      (∀ y, y ≠ task → task_at r.heap y = task_at h y) ∧
      (∀ y, y ≠ task → (r.heap y = none ↔ h y = none)) ∧
      r.heap task ≠ none) := by
  cases mem with
  | none =>
    left
    simp only [thpool_add, Option.some.injEq] at hr
    subst hr
    simp
  | some m =>
    obtain ⟨task, junk⟩ := m
    by_cases hf : h task = none
    · by_cases hsd : pool.shutdown = 0
      · right
        have h1t : (h.set task (some ⟨f, x, junk⟩)) task = some ⟨f, x, junk⟩ := by simp
        have hm : task ∉ ns := fun hmem => chain_alloc hc task hmem hf
        have hc1 : chain (h.set task (some ⟨f, x, junk⟩)) pool.queue.head ns :=
          chain_frame hc (fun a ha => Heap.set_other _ _ (fun e => hm (e ▸ ha)))
        obtain ⟨h2, q2, hadd, hc2, htl2, ht2, _, hcont, halloc⟩ :=
          task_queue_add_spec hc1 htl h1t hm
        simp only [thpool_add, hf, hsd, hadd, ne_eq, not_true_eq_false, ite_false,
          Option.some.injEq] at hr
        subst hr
        refine ⟨task, junk, rfl, hf, hsd, rfl, rfl, rfl, hsd.symm, hc2, htl2, hm, ?_, ?_, ?_, ?_⟩
        · simp [task_at, ht2]
        · intro y hy
          rw [hcont y hy]
          simp [task_at, Heap.set_other _ _ hy]
        · intro y hy
          rw [halloc y, Heap.set_other _ _ hy]
        · show h2 task ≠ none
          rw [ht2]; simp
      · left
        simp only [thpool_add, hf, hsd, ne_eq, not_true_eq_false, not_false_eq_true,
          ite_false, ite_true, Option.some.injEq] at hr
        subst hr
        refine ⟨rfl, Heap.set_set_none _ _ _ hf, rfl, Or.inr hsd, Or.inr rfl⟩
    · simp [thpool_add, hf] at hr

/-- The outcomes of `thpool_thread_locked` on a well-formed queue with nodes `ns`:
wait (queue empty, no shutdown), exit (shutdown), or take the first node. -/
theorem thpool_thread_locked_spec {h : Heap} {pool pool1 : thpool_t} {ns : List Nat}
    {pc : WorkerPc} {evs : List Event}
    (hc : chain h pool.queue.head ns) (htl : pool.queue.tail = ns.getLast?)
    (hr : thpool_thread_locked h pool = some (pool1, pc, evs)) :
    (ns = [] ∧ pool.shutdown = 0 ∧ pool1 = pool ∧ pc = WorkerPc.waiting ∧
        evs = [Event.wait_release]) ∨
    (pool.shutdown ≠ 0 ∧ pool1 = { pool with size := pool.size - 1 } ∧
        pc = WorkerPc.exited ∧ evs = [Event.unlock]) ∨
    (∃ b rest, ns = b :: rest ∧ pool.shutdown = 0 ∧ pc = WorkerPc.running (some b) ∧
        evs = [Event.dequeue b (task_at h b).1 (task_at h b).2, Event.unlock] ∧
        pool1.size = pool.size ∧ pool1.shutdown = pool.shutdown ∧
        chain h pool1.queue.head rest ∧ pool1.queue.tail = rest.getLast?) := by
  by_cases hsd : pool.shutdown = 0
  · cases ns with
    | nil =>
      left
      have hh : pool.queue.head = none := hc
      simp [thpool_thread_locked, task_queue_empty, hh, hsd] at hr
      obtain ⟨h1, h2, h3⟩ := hr
      exact ⟨rfl, hsd, h1.symm, h2.symm, h3.symm⟩
    | cons b rest =>
      right; right
      have hh : pool.queue.head = some b := hc.1
      obtain ⟨q1, hpull, hc1, htl1⟩ := task_queue_pull_spec hc htl
      simp [thpool_thread_locked, task_queue_empty, hh, hsd, hpull] at hr
      obtain ⟨h1, h2, h3⟩ := hr
      subst h1
      exact ⟨b, rest, rfl, hsd, h2.symm, h3.symm, rfl, hsd.symm, hc1, htl1⟩
  · right; left
    simp [thpool_thread_locked, hsd] at hr
    obtain ⟨h1, h2, h3⟩ := hr
    exact ⟨hsd, h1.symm, h2.symm, h3.symm⟩

/-! ## Claims about `thpool_add` and the queue functions -/

/-- Claim C1: on a pool whose shutdown flag is set, `thpool_add` returns an
error code and changes nothing: the task heap (hence the sequence of queued
tasks) and the pool fields `queue.head`, `queue.tail`, `shutdown` and `size`
are as before, and no enqueue is performed.  `hmem` says that `malloc`
returns `NULL` or a block that is not live. -/
theorem thpool_add_after_shutdown (h : Heap) (pool : thpool_t) (func arg : Nat)
    (mem : Option (Nat × Option Nat)) (hsd : pool.shutdown ≠ 0)
    (hmem : ∀ task junk, mem = some (task, junk) → h task = none) :
    ∃ r, thpool_add h pool func arg mem = some r ∧ r.rc ≠ 0 ∧ r.heap = h ∧
      r.pool = pool ∧ ∀ t f a, Event.enqueue t f a ∉ r.events := by
  cases mem with
  | none =>
    refine ⟨{ heap := h, pool := pool, rc := -1, events := [] }, rfl, ?_, rfl, rfl, by simp⟩
    show (-1 : Int) ≠ 0
    decide
  | some m =>
    obtain ⟨task, junk⟩ := m
    have hf : h task = none := hmem task junk rfl
    refine ⟨{ heap := h, pool := pool, rc := -1, events := [Event.lock, Event.unlock] },
      ?_, (by show (-1 : Int) ≠ 0; decide), rfl, rfl, by simp⟩
    simp only [thpool_add, hf, hsd, ne_eq, not_true_eq_false, not_false_eq_true, ite_false,
      ite_true, Heap.set_set_none _ _ _ hf]

/-- The statement of C1 on the pool `closed_pool` with one queued task, `malloc`
returning the free address 2. -/
theorem thpool_add_after_shutdown_witness :
    ∃ r, thpool_add heap_one closed_pool 11 101 (some (2, some 7)) = some r ∧ r.rc ≠ 0 ∧
      r.heap = heap_one ∧ r.pool = closed_pool ∧ ∀ t f a, Event.enqueue t f a ∉ r.events :=
  thpool_add_after_shutdown heap_one closed_pool 11 101 (some (2, some 7)) (by decide)
    (by
      intro task junk e
      simp only [Option.some.injEq, Prod.mk.injEq] at e
      rw [← e.1]
      rfl)

/-- Claim C8: the queue invariant (`head` is `NULL` iff `tail` is `NULL`, and
`tail` is the last node of the chain from `head`, with no successor) holds
for the queue of every pool returned by `thpool_create`, and from a queue
that satisfies it: `task_queue_add` of a live node that is not in the queue
succeeds and re-establishes it; `task_queue_pull` succeeds and re-establishes
it (empty and one-element queues included); the drain of `thpool_destroy`
completes, given enough iterations, and leaves a queue that satisfies it. -/
theorem queue_inv_preserved (h : Heap) (q : task_queue_t) (hq : queue_inv h q) :
    (∀ (sz : Nat) (env : CreateEnv) (size : Int) (pool : thpool_t) (h0 : Heap),
        (thpool_create sz env size).2 = some pool → queue_inv h0 pool.queue) ∧
    (∀ task t, h task = some t → (∀ ns, chain h q.head ns → task ∉ ns) →
        ∃ h1 q1, task_queue_add h q task = some (h1, q1) ∧ queue_inv h1 q1) ∧
    (∃ q1 r, task_queue_pull h q = some (q1, r) ∧ queue_inv h q1) ∧
    (∃ bound, ∀ fuel, bound ≤ fuel → ∀ s : State, s.heap = h → s.pool.queue = q →
        s.destroy = DestroyPc.idle →
        ∃ s1, step s (Action.destroy fuel) = some s1 ∧
          queue_inv s1.heap s1.pool.queue) := by
  obtain ⟨_, ns, hc, htl⟩ := hq
  refine ⟨?_, ?_, ?_, ?_⟩
  · intro sz env size pool h0 hr
    have hsp : ∀ (n i : Nat) (p0 p1 : thpool_t), (spawn_loop env n i p0).2 = some p1 →
        p1.queue = p0.queue := by
      intro n
      induction n with
      | zero => intro i p0 p1 e; simp only [spawn_loop, Option.some.injEq] at e; rw [e]
      | succ n ih =>
        intro i p0 p1 e
        simp only [spawn_loop] at e
        split at e
        · cases e
        · dsimp only at e; rw [ih _ _ _ e]
    have hqe : pool.queue = { head := none, tail := none } := by
      simp only [thpool_create] at hr
      split at hr
      · cases hr
      · split at hr
        · cases hr
        · split at hr
          · cases hr
          · split at hr
            · cases hr
            · split at hr
              · cases hr
              · next evs p1 hp =>
                have h2 := hsp _ _ _ p1 (by rw [hp])
                simp only [Option.some.injEq] at hr
                rw [← hr, h2]
    rw [hqe]
    exact ⟨Iff.rfl, [], rfl, rfl⟩
  · intro task t ht hm
    obtain ⟨h1, q1, hadd, hc1, htl1, _⟩ := task_queue_add_spec hc htl ht (hm ns hc)
    refine ⟨h1, q1, hadd, ?_, ns ++ [task], hc1, by simp [htl1]⟩
    have hh : q1.head ≠ none := by
      cases ns with
      | nil => rw [hc1.1]; simp
      | cons a r => rw [hc1.1]; simp
    simp [hh, htl1]
  · obtain ⟨q1, hpull, hc1, htl1⟩ := task_queue_pull_spec hc htl
    refine ⟨q1, ns.head?, hpull, ?_, ns.tail, hc1, htl1⟩
    cases hnt : ns.tail with
    | nil =>
      rw [hnt] at hc1 htl1
      have e1 : q1.head = none := hc1
      simp [e1, htl1]
    | cons a r =>
      rw [hnt] at hc1 htl1
      have e1 : q1.head = some a := hc1.1
      obtain ⟨tl, hl⟩ : ∃ tl, (a :: r).getLast? = some tl := by
        cases hg : (a :: r).getLast? with
        | none => simp at hg
        | some tl => exact ⟨tl, rfl⟩
      simp [e1, htl1, hl]
  · refine ⟨ns.length, ?_⟩
    intro fuel hfuel s hsh hsq hsd
    subst hsh hsq
    obtain ⟨h1, hd, _, _⟩ := thpool_destroy_drain_spec ns fuel s.heap _ hc hfuel
    cases hstep : step s (Action.destroy fuel) with
    | none => simp [step, hsd, hd] at hstep
    | some s1 =>
      simp only [step, hsd, hd, Option.some.injEq] at hstep
      subst hstep
      exact ⟨_, rfl, Iff.rfl, [], rfl, rfl⟩

/-- The statement of C8 on the two-node queue of `heap_three`: adding the live
node 3 and pulling both keep the invariant. -/
theorem queue_inv_preserved_witness :
    queue_inv heap_three { head := some 1, tail := some 2 } ∧
    (∃ h1 q1, task_queue_add heap_three { head := some 1, tail := some 2 } 3 = some (h1, q1) ∧
      queue_inv h1 q1) ∧
    (∃ q1 r, task_queue_pull heap_three { head := some 1, tail := some 2 } = some (q1, r) ∧
      queue_inv heap_three q1) :=
  have hc : chain heap_three (some 1) [1, 2] := ⟨rfl, _, rfl, rfl, _, rfl, rfl⟩
  have hq : queue_inv heap_three { head := some 1, tail := some 2 } :=
    ⟨by decide, [1, 2], hc, rfl⟩
  have hall := queue_inv_preserved heap_three { head := some 1, tail := some 2 } hq
  ⟨hq, hall.2.1 3 _ rfl (fun ns hns => by rw [chain_unique hns hc]; decide), hall.2.2.1⟩

/-! ## Claims about `thpool_create` -/

theorem threads_bytes_negative (sz : Nat) (size : Int) (h1 : size < 0)
    (h2 : -2 ^ 31 ≤ size) (h3 : 0 < sz) (h4 : sz ≤ 2 ^ 31) :
    2 ^ 63 ≤ threads_bytes sz size := by
  obtain ⟨k, hk⟩ : ∃ k : Nat, size = -(k : Int) := ⟨(-size).toNat, by omega⟩
  subst hk
  have hk1 : 0 < k := by omega
  have hk2 : k ≤ 2 ^ 31 := by omega
  have hmod : ((-(k : Int)) % 2 ^ 64).toNat = 2 ^ 64 - k := by omega
  have hprod : sz * k ≤ 2 ^ 31 * 2 ^ 31 := Nat.mul_le_mul h4 hk2
  have hpos : 0 < sz * k := Nat.mul_pos h3 hk1
  have hsplit : sz * (2 ^ 64 - k) = (2 ^ 64 - sz * k) + (sz - 1) * 2 ^ 64 := by
    obtain ⟨m, rfl⟩ : ∃ m, sz = m + 1 := ⟨sz - 1, by omega⟩
    have e1 : (m + 1) * (2 ^ 64 - k) + (m + 1) * k = (m + 1) * 2 ^ 64 := by
      rw [← Nat.mul_add]
      congr 1
      omega
    have e2 : (m + 1) * 2 ^ 64 = 2 ^ 64 + m * 2 ^ 64 := by ring
    simp only [Nat.add_sub_cancel]
    omega
  unfold threads_bytes
  rw [hmod, hsplit, Nat.add_mul_mod_self_right]
  have : 2 ^ 64 - sz * k < 2 ^ 64 := by omega
  rw [Nat.mod_eq_of_lt this]
  omega

theorem spawn_loop_zero (env : CreateEnv) (i : Nat) (pool : thpool_t) :
    spawn_loop env 0 i pool = ([], some pool) := rfl

/-- The counterexample to claim C4 as stated: with `size` 0, when the two
allocations (the second of zero bytes) and the two initialisations succeed,
`thpool_create` returns a pool. -/
theorem thpool_create_zero_returns_pool :
    (thpool_create 8 (env_ok (raw_block 0)) 0).2 =
      some { size := 0, shutdown := 0, queue := { head := none, tail := none } } := by
  decide

/-- Claim C4, amended: for `size ≤ 0`, `thpool_create` calls `pthread_create`
not at all; it returns `NULL` exactly when the pool allocation, the
allocation of the thread-id array, the mutex initialisation or the condition
initialisation fails, and then every resource it acquired has been released;
for a negative `size` of the `int` range the byte count of the thread-id
array wraps to at least `2 ^ 63`, so that it returns `NULL` with any
allocator that cannot serve such a request. -/
theorem thpool_create_nonpositive (sz : Nat) (env : CreateEnv) (size : Int)
    (hsize : size ≤ 0) :
    (∀ i rc, Event.spawn i rc ∉ (thpool_create sz env size).1) ∧
    ((thpool_create sz env size).2 = none ↔
      (env.pool_mem = none ∨ env.threads_mem (threads_bytes sz size) = false ∨
        env.mutex_init ≠ 0 ∨ env.cond_init ≠ 0)) ∧
    ((thpool_create sz env size).2 = none → leak_free (thpool_create sz env size).1) ∧
    (size < 0 → -2 ^ 31 ≤ size → 0 < sz → sz ≤ 2 ^ 31 →
      (∀ n, 2 ^ 63 ≤ n → env.threads_mem n = false) →
      (thpool_create sz env size).2 = none) := by
  have hn : size.toNat = 0 := by omega
  have key : (∀ i rc, Event.spawn i rc ∉ (thpool_create sz env size).1) ∧
      ((thpool_create sz env size).2 = none ↔
        (env.pool_mem = none ∨ env.threads_mem (threads_bytes sz size) = false ∨
          env.mutex_init ≠ 0 ∨ env.cond_init ≠ 0)) ∧
      ((thpool_create sz env size).2 = none → leak_free (thpool_create sz env size).1) := by
    cases hp : env.pool_mem with
    | none => simp [thpool_create, hp, leak_free]
    | some raw =>
      by_cases ht : env.threads_mem (threads_bytes sz size) = false
      · simp [thpool_create, hp, ht, leak_free]
      · by_cases hm : env.mutex_init = 0
        · by_cases hc : env.cond_init = 0
          · simp [thpool_create, hp, ht, hm, hc, hn, spawn_loop_zero]
          · have hc1 : ¬ 0 = env.cond_init := fun e => hc e.symm
            simp [thpool_create, hp, ht, hm, hc, hc1, leak_free]
        · have hm1 : ¬ 0 = env.mutex_init := fun e => hm e.symm
          simp [thpool_create, hp, ht, hm, hm1, leak_free]
  refine ⟨key.1, key.2.1, key.2.2, ?_⟩
  intro h1 h2 h3 h4 halloc
  exact key.2.1.mpr (Or.inr (Or.inl (halloc _ (threads_bytes_negative sz size h1 h2 h3 h4))))

/-- The statement of C4, amended, at `size = -1` with 8-byte thread ids: the
request of `2 ^ 64 - 8` bytes is refused and `NULL` is returned, nothing being
left allocated. -/
theorem thpool_create_nonpositive_witness :
    (-1 : Int) ≤ 0 ∧ (thpool_create 8 (env_bounded (raw_block 0)) (-1)).2 = none ∧
      leak_free (thpool_create 8 (env_bounded (raw_block 0)) (-1)).1 :=
  have h := thpool_create_nonpositive 8 (env_bounded (raw_block 0)) (-1) (by decide)
  have hnone := h.2.2.2 (by decide) (by decide) (by decide) (by decide)
    (fun n hn => by
      show decide (n < 2 ^ 63) = false
      exact decide_eq_false (by omega))
  ⟨by decide, hnone, h.2.2.1 hnone⟩

/-- Claim C5, the code at the failing input: `size` is 2, the first
`pthread_create` succeeds and the second fails.  `thpool_create` returns
`NULL` after these calls, in this order: the mutex is unlocked, then the
condition variable and the mutex are destroyed and the two blocks freed.  The
shutdown flag is not set, the condition is not signalled and the worker that
was created is not joined. -/
theorem thpool_create_spawn_failure_abandons_worker :
    thpool_create 8 (env_spawn_fails (raw_block 0) 1) 2 =
      ([Event.malloc_pool true, Event.malloc_threads 16 true, Event.mutex_init 0,
        Event.cond_init 0, Event.lock, Event.spawn 0 0, Event.spawn 1 11, Event.unlock,
        Event.cond_destroy, Event.mutex_destroy, Event.free_threads, Event.free_pool],
       none) := by
  decide

/-- Claim C6, the code at the failing input: `size` is 1, every call succeeds
and the block returned for the pool holds 5 in its counter field.  The pool
returned by `thpool_create` has the counter at 6, not 1: line 165 increments
a field that no line has set. -/
theorem thpool_create_counter_not_set :
    (thpool_create 8 (env_ok (raw_block 5)) 1).2 =
      some { size := 6, shutdown := 0, queue := { head := none, tail := none } } := by
  decide

/-! ## The structural invariant of the machine -/

theorem set_get_cases {ws : List WorkerPc} {i j : Nat} {pc x : WorkerPc}
    (h : (ws.set i pc)[j]? = some x) :
    (j = i ∧ x = pc) ∨ (j ≠ i ∧ ws[j]? = some x) := by
  by_cases hji : j = i
  · subst hji
    left
    rw [List.getElem?_set] at h
    simp only [if_true] at h
    split at h
    · exact ⟨rfl, (Option.some.inj h).symm⟩
    · cases h
  · right
    rw [List.getElem?_set_ne (fun e => hji e.symm)] at h
    exact ⟨hji, h⟩

theorem inv_init (h : Heap) (pool : thpool_t) (n : Nat)
    (hq : pool.queue = { head := none, tail := none }) :
    Inv (init_state h pool n) [] := by
  refine ⟨?_, ?_, ?_, ?_⟩
  · show pool.queue.head = none
    rw [hq]
  · show pool.queue.tail = none
    rw [hq]
  · intro i a hw
    simp only [init_state, List.getElem?_replicate] at hw
    split at hw <;> cases hw
  · intro i j a hw
    simp only [init_state, List.getElem?_replicate] at hw
    split at hw <;> cases hw

/-- Whenever the loop of lines 193-198 completes on a chain, it has freed
exactly the nodes of the chain. -/
theorem thpool_destroy_drain_sound :
    ∀ (ns : List Nat) (fuel : Nat) (h h1 : Heap) (p : Option Nat),
    chain h p ns → thpool_destroy_drain fuel h p = some h1 →
    (∀ a ∈ ns, h1 a = none) ∧ (∀ a, a ∉ ns → h1 a = h a)
  | [], fuel, h, h1, p, hc, hd => by
    have hp : p = none := hc
    subst hp
    have : h1 = h := by
      cases fuel <;> simp only [thpool_destroy_drain, Option.some.injEq] at hd <;> exact hd.symm
    subst this
    exact ⟨by simp, fun _ _ => rfl⟩
  | a :: rest, 0, h, h1, p, hc, hd => by
    rw [hc.1] at hd
    simp [thpool_destroy_drain] at hd
  | a :: rest, fuel + 1, h, h1, p, hc, hd => by
    have hnd := chain_nodup hc
    obtain ⟨hp, t, ht, hc1⟩ := hc
    subst hp
    have hnot : a ∉ rest := (List.nodup_cons.mp hnd).1
    have hc2 : chain (h.set a none) t.next rest :=
      chain_frame hc1 (fun b hb => Heap.set_other _ _ (fun e => hnot (e ▸ hb)))
    simp only [thpool_destroy_drain, ht] at hd
    obtain ⟨hf1, hk1⟩ := thpool_destroy_drain_sound rest fuel (h.set a none) h1 t.next hc2 hd
    refine ⟨?_, ?_⟩
    · intro b hb
      rcases List.mem_cons.mp hb with rfl | hb1
      · rw [hk1 _ hnot]; simp
      · exact hf1 b hb1
    · intro b hb
      have hb1 : b ∉ rest := fun e => hb (List.mem_cons_of_mem a e)
      have hb2 : b ≠ a := fun e => hb (by simp [e])
      rw [hk1 b hb1, Heap.set_other _ _ hb2]

/-- The worker block that follows the acquisition of the mutex keeps the
structural invariant. -/
theorem thpool_thread_sync_inv {s s1 : State} {ns : List Nat} {i : Nat} {first : Event}
    (hi : Inv s ns) (hs : thpool_thread_sync s i first = some s1) : ∃ ns1, Inv s1 ns1 := by
  unfold thpool_thread_sync at hs
  cases hw : thpool_thread_locked s.heap s.pool with
  | none => rw [hw] at hs; cases hs
  | some r =>
    obtain ⟨pool1, pc, evs⟩ := r
    rw [hw] at hs
    simp only [Option.some.injEq] at hs
    subst hs
    rcases thpool_thread_locked_spec hi.hchain hi.htail hw with
      ⟨_, _, hp, hpc1, _⟩ | ⟨_, hp, hpc1, _⟩ | ⟨b, rest, hns, _, hpc1, _, _, _, hc1, htl1⟩
    · subst hp hpc1
      refine ⟨ns, hi.hchain, hi.htail, ?_, ?_⟩
      · intro j a hj
        rcases set_get_cases hj with ⟨_, e⟩ | ⟨_, e⟩
        · cases e
        · exact hi.hown j a e
      · intro j k a hj hk
        rcases set_get_cases hj with ⟨_, e⟩ | ⟨_, ej⟩
        · cases e
        · rcases set_get_cases hk with ⟨_, e⟩ | ⟨_, ek⟩
          · cases e
          · exact hi.hdistinct j k a ej ek
    · subst hp hpc1
      refine ⟨ns, hi.hchain, hi.htail, ?_, ?_⟩
      · intro j a hj
        rcases set_get_cases hj with ⟨_, e⟩ | ⟨_, e⟩
        · cases e
        · exact hi.hown j a e
      · intro j k a hj hk
        rcases set_get_cases hj with ⟨_, e⟩ | ⟨_, ej⟩
        · cases e
        · rcases set_get_cases hk with ⟨_, e⟩ | ⟨_, ek⟩
          · cases e
          · exact hi.hdistinct j k a ej ek
    · subst hns hpc1
      have hnd := chain_nodup hi.hchain
      have hb : b ∉ rest := (List.nodup_cons.mp hnd).1
      refine ⟨rest, hc1, htl1, ?_, ?_⟩
      · intro j a hj
        rcases set_get_cases hj with ⟨_, e⟩ | ⟨_, e⟩
        · cases e
          exact ⟨chain_alloc hi.hchain b (List.mem_cons_self b rest), hb⟩
        · obtain ⟨h1, h2⟩ := hi.hown j a e
          exact ⟨h1, fun hm => h2 (List.mem_cons_of_mem b hm)⟩
      · intro j k a hj hk
        rcases set_get_cases hj with ⟨ej, e⟩ | ⟨_, ej⟩
        · cases e
          rcases set_get_cases hk with ⟨ek, _⟩ | ⟨_, ek⟩
          · rw [ej, ek]
          · exact absurd (List.mem_cons_self b rest) (hi.hown k b ek).2
        · rcases set_get_cases hk with ⟨_, e⟩ | ⟨_, ek⟩
          · cases e
            exact absurd (List.mem_cons_self b rest) (hi.hown j b ej).2
          · exact hi.hdistinct j k a ej ek

/-- Every move of the machine keeps the structural invariant. -/
theorem step_inv {s s1 : State} {a : Action} {ns : List Nat}
    (hi : Inv s ns) (hs : step s a = some s1) : ∃ ns1, Inv s1 ns1 := by
  cases a with
  | add p f x mem =>
    simp only [step] at hs
    cases hr : thpool_add s.heap s.pool f x mem with
    | none => rw [hr] at hs; cases hs
    | some r =>
      rw [hr] at hs
      simp only [Option.some.injEq] at hs
      subst hs
      rcases thpool_add_spec hi.hchain hi.htail hr with
        ⟨_, hh, hp, _, _⟩ |
        ⟨task, junk, _, hfresh, _, _, _, _, _, hc1, htl1, _, _, _, halloc, _⟩
      · refine ⟨ns, ?_, ?_, ?_, hi.hdistinct⟩
        · show chain r.heap r.pool.queue.head ns
          rw [hh, hp]; exact hi.hchain
        · show r.pool.queue.tail = ns.getLast?
          rw [hp]; exact hi.htail
        · intro i a hw
          show r.heap a ≠ none ∧ a ∉ ns
          rw [hh]; exact hi.hown i a hw
      · refine ⟨ns ++ [task], hc1, by simp [htl1], ?_, hi.hdistinct⟩
        intro i a hw
        obtain ⟨h1, h2⟩ := hi.hown i a hw
        have hne : a ≠ task := fun e => h1 (e ▸ hfresh)
        refine ⟨fun e => h1 ((halloc a hne).mp e), ?_⟩
        simp [h2, hne]
  | worker i =>
    simp only [step] at hs
    split at hs
    · exact thpool_thread_sync_inv hi hs
    · exact thpool_thread_sync_inv hi hs
    · next task hw =>
      cases task with
      | none =>
        simp only [thpool_thread_run, Option.some.injEq] at hs
        subst hs
        refine ⟨ns, hi.hchain, hi.htail, ?_, ?_⟩
        · intro j a hj
          rcases set_get_cases hj with ⟨_, e⟩ | ⟨_, e⟩
          · cases e
          · exact hi.hown j a e
        · intro j k a hj hk
          rcases set_get_cases hj with ⟨_, e⟩ | ⟨_, ej⟩
          · cases e
          · rcases set_get_cases hk with ⟨_, e⟩ | ⟨_, ek⟩
            · cases e
            · exact hi.hdistinct j k a ej ek
      | some t =>
        obtain ⟨halive, hnq⟩ := hi.hown i t hw
        cases ht : s.heap t with
        | none => exact absurd ht halive
        | some n =>
          simp only [thpool_thread_run, ht, Option.some.injEq] at hs
          subst hs
          refine ⟨ns, ?_, hi.htail, ?_, ?_⟩
          · exact chain_frame hi.hchain
              (fun b hb => Heap.set_other _ _ (fun e => hnq (e ▸ hb)))
          · intro j a hj
            rcases set_get_cases hj with ⟨_, e⟩ | ⟨hji, e⟩
            · cases e
            · obtain ⟨h1, h2⟩ := hi.hown j a e
              have hne : a ≠ t := fun e2 => hji (hi.hdistinct j i t (e2 ▸ e) hw)
              exact ⟨by show s.heap.set t none a ≠ none; rw [Heap.set_other _ _ hne]; exact h1, h2⟩
          · intro j k a hj hk
            rcases set_get_cases hj with ⟨_, e⟩ | ⟨_, ej⟩
            · cases e
            · rcases set_get_cases hk with ⟨_, e⟩ | ⟨_, ek⟩
              · cases e
              · exact hi.hdistinct j k a ej ek
    · cases hs
  | destroy fuel =>
    simp only [step] at hs
    split at hs
    · cases hd : thpool_destroy_drain fuel s.heap s.pool.queue.head with
      | none => rw [hd] at hs; cases hs
      | some h1 =>
        rw [hd] at hs
        simp only [Option.some.injEq] at hs
        subst hs
        obtain ⟨_, hkeep⟩ := thpool_destroy_drain_sound ns fuel s.heap h1 _ hi.hchain hd
        refine ⟨[], rfl, rfl, ?_, hi.hdistinct⟩
        intro i a hw
        obtain ⟨h2, h3⟩ := hi.hown i a hw
        exact ⟨by show h1 a ≠ none; rw [hkeep a h3]; exact h2, by simp⟩
    · cases hs
  | join rc =>
    simp only [step] at hs
    split at hs
    · split at hs
      · split at hs
        · simp only [Option.some.injEq] at hs
          subst hs
          exact ⟨ns, hi.hchain, hi.htail, hi.hown, hi.hdistinct⟩
        · split at hs
          · simp only [Option.some.injEq] at hs
            subst hs
            exact ⟨ns, hi.hchain, hi.htail, hi.hown, hi.hdistinct⟩
          · cases hs
      · cases hs
    · cases hs
  | relock =>
    simp only [step] at hs
    split at hs
    · split at hs
      · cases hs
      · simp only [Option.some.injEq] at hs
        subst hs
        exact ⟨ns, hi.hchain, hi.htail, hi.hown, hi.hdistinct⟩
    · cases hs

theorem run_inv : ∀ (acts : List Action) {s s1 : State} {ns : List Nat},
    Inv s ns → run s acts = some s1 → ∃ ns1, Inv s1 ns1
  | [], s, s1, ns, hi, hr => by
    simp only [run, Option.some.injEq] at hr
    subst hr
    exact ⟨ns, hi⟩
  | a :: rest, s, s1, ns, hi, hr => by
    simp only [run] at hr
    cases hs : step s a with
    | none => rw [hs] at hr; cases hr
    | some s2 =>
      rw [hs] at hr
      obtain ⟨ns2, hi2⟩ := step_inv hi hs
      exact run_inv rest hi2 hr

/-! ## The live-worker counter -/

theorem thpool_add_fields {h : Heap} {pool : thpool_t} {f x : Nat}
    {mem : Option (Nat × Option Nat)} {r : AddResult}
    (hr : thpool_add h pool f x mem = some r) :
    r.pool.size = pool.size ∧ r.pool.shutdown = pool.shutdown := by
  unfold thpool_add at hr
  split at hr
  · simp only [Option.some.injEq] at hr
    subst hr
    exact ⟨rfl, rfl⟩
  · split at hr
    · cases hr
    · split at hr
      · simp only [Option.some.injEq] at hr
        subst hr
        exact ⟨rfl, rfl⟩
      · dsimp only at hr
        split at hr
        · cases hr
        · simp only [Option.some.injEq] at hr
          subst hr
          exact ⟨rfl, rfl⟩

theorem thpool_thread_locked_fields {h : Heap} {pool pool1 : thpool_t} {pc : WorkerPc}
    {evs : List Event} (hr : thpool_thread_locked h pool = some (pool1, pc, evs)) :
    pool1.shutdown = pool.shutdown ∧
      ((pc = WorkerPc.exited ∧ pool1.size = pool.size - 1 ∧ pool.shutdown ≠ 0) ∨
       (pc ≠ WorkerPc.exited ∧ pool1.size = pool.size ∧ pool.shutdown = 0)) := by
  unfold thpool_thread_locked at hr
  split at hr
  · next hc =>
    simp only [Option.some.injEq, Prod.mk.injEq] at hr
    obtain ⟨h1, h2, _⟩ := hr
    subst h1 h2
    simp only [Bool.and_eq_true, beq_iff_eq] at hc
    exact ⟨rfl, Or.inr ⟨by simp, rfl, hc.2⟩⟩
  · split at hr
    · next hsd =>
      simp only [Option.some.injEq, Prod.mk.injEq] at hr
      obtain ⟨h1, h2, _⟩ := hr
      subst h1 h2
      exact ⟨rfl, Or.inl ⟨rfl, rfl, hsd⟩⟩
    · next hsd =>
      split at hr
      · cases hr
      · simp only [Option.some.injEq, Prod.mk.injEq] at hr
        obtain ⟨h1, h2, _⟩ := hr
        subst h1 h2
        exact ⟨rfl, Or.inr ⟨by simp, rfl, by simpa using hsd⟩⟩

theorem live_count_set : ∀ {ws : List WorkerPc} {i : Nat} {old : WorkerPc} (new : WorkerPc),
    ws[i]? = some old →
    live_count (ws.set i new) + (if old ≠ WorkerPc.exited then 1 else 0) =
      live_count ws + (if new ≠ WorkerPc.exited then 1 else 0)
  | [], i, old, new, h => by simp at h
  | w :: ws, 0, old, new, h => by
    simp only [List.getElem?_cons_zero, Option.some.injEq] at h
    subst h
    simp only [live_count, List.set_cons_zero, List.filter_cons]
    by_cases h1 : w = WorkerPc.exited <;> by_cases h2 : new = WorkerPc.exited <;>
      simp [h1, h2]
  | w :: ws, i + 1, old, new, h => by
    simp only [List.getElem?_cons_succ] at h
    have ih := live_count_set new h
    simp only [live_count, List.set_cons_succ, List.filter_cons, ne_eq] at ih ⊢
    by_cases h1 : w = WorkerPc.exited
    · simpa [h1] using ih
    · simp only [h1, not_false_eq_true, decide_True, ite_true, List.length_cons,
        Nat.cast_add, Nat.cast_one]
      omega

theorem live_count_nonneg (ws : List WorkerPc) : 0 ≤ live_count ws := by
  unfold live_count
  exact Int.natCast_nonneg _

theorem live_count_zero {ws : List WorkerPc} (h : live_count ws = 0) :
    ∀ pc ∈ ws, pc = WorkerPc.exited := by
  intro pc hpc
  by_contra hne
  have hm : pc ∈ ws.filter (fun pc => pc ≠ WorkerPc.exited) := by
    simp [List.mem_filter, hpc, hne]
  have hl : 0 < (ws.filter (fun pc => pc ≠ WorkerPc.exited)).length :=
    List.length_pos_of_mem hm
  unfold live_count at h
  omega

theorem thpool_destroy_loop_counted (pool : thpool_t) :
    (thpool_destroy_loop pool).1 = DestroyPc.returned 0 → pool.size ≤ 0 := by
  unfold thpool_destroy_loop
  split
  · intro h; cases h
  · intro _; omega

theorem thpool_thread_sync_counted {s s1 : State} {i : Nat} {first : Event} {old : WorkerPc}
    (hold : s.workers[i]? = some old) (hlive : old ≠ WorkerPc.exited)
    (hc : Counted s) (hs : thpool_thread_sync s i first = some s1) : Counted s1 := by
  unfold thpool_thread_sync at hs
  cases hw : thpool_thread_locked s.heap s.pool with
  | none => rw [hw] at hs; cases hs
  | some r =>
    obtain ⟨pool1, pc, evs⟩ := r
    rw [hw] at hs
    simp only [Option.some.injEq] at hs
    subst hs
    have hset := live_count_set pc hold
    simp only [hlive, ne_eq, not_false_eq_true, ite_true] at hset
    obtain ⟨h1, h2⟩ := hc
    rcases (thpool_thread_locked_fields hw).2 with ⟨e1, e2, _⟩ | ⟨e1, e2, _⟩
    · subst e1
      simp only [ne_eq, not_true_eq_false, ite_false] at hset
      refine ⟨?_, fun hd => ?_⟩
      · show pool1.size = live_count (s.workers.set i WorkerPc.exited)
        omega
      · show pool1.size ≤ 0
        have := h2 hd
        omega
    · simp only [e1, ne_eq, not_false_eq_true, ite_true] at hset
      refine ⟨?_, fun hd => ?_⟩
      · show pool1.size = live_count (s.workers.set i pc)
        omega
      · show pool1.size ≤ 0
        have := h2 hd
        omega

/-- Every move of the machine keeps the counter invariant. -/
theorem step_counted {s s1 : State} {a : Action} (hc : Counted s)
    (hs : step s a = some s1) : Counted s1 := by
  cases a with
  | add p f x mem =>
    simp only [step] at hs
    cases hr : thpool_add s.heap s.pool f x mem with
    | none => rw [hr] at hs; cases hs
    | some r =>
      rw [hr] at hs
      simp only [Option.some.injEq] at hs
      subst hs
      obtain ⟨e1, _⟩ := thpool_add_fields hr
      exact ⟨by show r.pool.size = _; rw [e1]; exact hc.1,
        fun hd => by show r.pool.size ≤ 0; rw [e1]; exact hc.2 hd⟩
  | worker i =>
    simp only [step] at hs
    split at hs
    · next hw => exact thpool_thread_sync_counted hw (by simp) hc hs
    · next hw => exact thpool_thread_sync_counted hw (by simp) hc hs
    · next task hw =>
      cases hrun : thpool_thread_run s.heap task with
      | none => rw [hrun] at hs; cases hs
      | some r =>
        rw [hrun] at hs
        simp only [Option.some.injEq] at hs
        subst hs
        have hset := live_count_set WorkerPc.top hw
        simp only [ne_eq, not_false_eq_true, ite_true, reduceCtorEq] at hset
        exact ⟨by show s.pool.size = live_count (s.workers.set i WorkerPc.top)
                  have := hc.1
                  omega, hc.2⟩
    · cases hs
  | destroy fuel =>
    simp only [step] at hs
    split at hs
    · cases hd : thpool_destroy_drain fuel s.heap s.pool.queue.head with
      | none => rw [hd] at hs; cases hs
      | some h1 =>
        rw [hd] at hs
        simp only [Option.some.injEq] at hs
        subst hs
        exact ⟨hc.1, fun hret => thpool_destroy_loop_counted _ hret⟩
    · cases hs
  | join rc =>
    simp only [step] at hs
    split at hs
    · split at hs
      · split at hs
        · simp only [Option.some.injEq] at hs
          subst hs
          exact ⟨hc.1, fun hret => by cases hret⟩
        · split at hs
          · simp only [Option.some.injEq] at hs
            subst hs
            exact ⟨hc.1, fun hret => by cases hret⟩
          · cases hs
      · cases hs
    · cases hs
  | relock =>
    simp only [step] at hs
    split at hs
    · split at hs
      · cases hs
      · simp only [Option.some.injEq] at hs
        subst hs
        exact ⟨hc.1, fun hret => thpool_destroy_loop_counted _ hret⟩
    · cases hs

theorem run_counted : ∀ (acts : List Action) {s s1 : State},
    Counted s → run s acts = some s1 → Counted s1
  | [], s, s1, hc, hr => by
    simp only [run, Option.some.injEq] at hr
    subst hr
    exact hc
  | a :: rest, s, s1, hc, hr => by
    simp only [run] at hr
    cases hs : step s a with
    | none => rw [hs] at hr; cases hr
    | some s2 =>
      rw [hs] at hr
      exact run_counted rest (step_counted hc hs) hr

/-- The counterexample to claim C7 as stated: a pool with one worker, whose
`pthread_join` fails with code 3.  `thpool_destroy` returns (with `error` at
1) while the counter is 1 and the worker has not left its loop. -/
theorem destroy_join_failure_leaves_counter :
    (run (init_state Heap.empty (pool_of 1) 1) [Action.destroy 0, Action.join 3]).map
        (fun s => (s.destroy, s.pool.size, s.workers)) =
      some (DestroyPc.returned 1, 1, [WorkerPc.top]) := by
  decide

/-- Claim C7, amended: from a state where `thpool_destroy` has not been called
and the counter `pool->size` is the number of workers that have not returned,
whenever `thpool_destroy` has returned without a failed `pthread_join`
(`error` is 0), the counter is zero and every worker has returned. -/
theorem destroy_returns_counter_zero (s0 s : State) (acts : List Action)
    (hsz : s0.pool.size = live_count s0.workers) (hidle : s0.destroy = DestroyPc.idle)
    (hr : run s0 acts = some s) (hret : s.destroy = DestroyPc.returned 0) :
    s.pool.size = 0 ∧ ∀ pc ∈ s.workers, pc = WorkerPc.exited := by
  have hc0 : Counted s0 := ⟨hsz, fun h => by rw [hidle] at h; cases h⟩
  obtain ⟨h1, h2⟩ := run_counted acts hc0 hr
  have h3 := h2 hret
  have h4 := live_count_nonneg s.workers
  have h5 : live_count s.workers = 0 := by omega
  exact ⟨by omega, live_count_zero h5⟩

/-- The statement of C7, amended, on a pool with two workers: both observe the
shutdown flag and return, both joins succeed, and `thpool_destroy` returns
with the counter at zero. -/
theorem destroy_returns_counter_zero_witness :
    ∃ s, run (init_state Heap.empty (pool_of 2) 2)
        [Action.destroy 0, Action.worker 0, Action.worker 1, Action.join 0, Action.join 0,
          Action.relock] = some s ∧
      s.destroy = DestroyPc.returned 0 ∧ s.pool.size = 0 ∧
      ∀ pc ∈ s.workers, pc = WorkerPc.exited :=
  ⟨_, rfl, rfl, destroy_returns_counter_zero (init_state Heap.empty (pool_of 2) 2) _
    [Action.destroy 0, Action.worker 0, Action.worker 1, Action.join 0, Action.join 0,
      Action.relock] rfl rfl rfl rfl⟩

/-! ## The history invariant -/

@[simp] theorem submitted_append (a b : List (Tid × Event)) :
    submitted (a ++ b) = submitted a ++ submitted b := by
  simp [submitted]

@[simp] theorem dequeued_append (a b : List (Tid × Event)) :
    dequeued (a ++ b) = dequeued a ++ dequeued b := by
  simp [dequeued]

@[simp] theorem executed_append (a b : List (Tid × Event)) :
    executed (a ++ b) = executed a ++ executed b := by
  simp [executed]

theorem contents_congr {h h1 : Heap} {ns : List Nat}
    (hf : ∀ a ∈ ns, task_at h1 a = task_at h a) : contents h1 ns = contents h ns := by
  unfold contents
  exact List.map_congr_left hf

theorem task_at_congr {h h1 : Heap} {a : Nat} (hf : h1 a = h a) :
    task_at h1 a = task_at h a := by
  simp [task_at, hf]

theorem single_set {ws : List WorkerPc} {i : Nat} {old new pc : WorkerPc}
    (hw : ws[i]? = some old) (h : ws.set i new = [pc]) : ws = [old] ∧ pc = new := by
  match ws, i, hw, h with
  | [], _, hw, _ => simp at hw
  | [w], 0, hw, h =>
    simp only [List.getElem?_cons_zero, Option.some.injEq] at hw
    simp only [List.set_cons_zero, List.cons.injEq, and_true] at h
    exact ⟨by rw [hw], h.symm⟩
  | [w], i + 1, hw, _ => simp at hw
  | w :: v :: r, 0, _, h => simp at h
  | w :: v :: r, i + 1, _, h => simp at h

/-- The events of `thpool_destroy` contain no enqueue, dequeue or call. -/
theorem thpool_destroy_loop_quiet (pool : thpool_t) (pre : List Event)
    (hpre : pre = [Event.lock, Event.set_shutdown] ∨ pre = [Event.lock]) :
    submitted (tag Tid.destroyer (pre ++ (thpool_destroy_loop pool).2)) = [] ∧
    dequeued (tag Tid.destroyer (pre ++ (thpool_destroy_loop pool).2)) = [] ∧
    executed (tag Tid.destroyer (pre ++ (thpool_destroy_loop pool).2)) = [] := by
  unfold thpool_destroy_loop
  split <;> rcases hpre with e | e <;> subst e <;> exact ⟨rfl, rfl, rfl⟩

theorem thpool_destroy_loop_not_idle (pool : thpool_t) :
    (thpool_destroy_loop pool).1 ≠ DestroyPc.idle := by
  unfold thpool_destroy_loop
  split <;> simp

theorem hist_init (h : Heap) (pool : thpool_t) (n : Nat) :
    Hist (init_state h pool n) [] := by
  refine ⟨fun _ => rfl, ?_⟩
  intro pc hpc
  cases n with
  | zero => simp [init_state] at hpc
  | succ n =>
    simp only [init_state, List.replicate_succ, List.cons.injEq] at hpc
    rw [← hpc.1]
    rfl

theorem thpool_thread_sync_hist {s s1 : State} {ns ns1 : List Nat} {i : Nat} {first : Event}
    {old : WorkerPc} (hi : Inv s ns) (hh : Hist s ns)
    (hold : s.workers[i]? = some old) (hidle : inflight s.heap old = [])
    (hfirst : first = Event.lock ∨ first = Event.wait_acquire)
    (hs : thpool_thread_sync s i first = some s1) (hi1 : Inv s1 ns1) : Hist s1 ns1 := by
  unfold thpool_thread_sync at hs
  cases hw : thpool_thread_locked s.heap s.pool with
  | none => rw [hw] at hs; cases hs
  | some r =>
    obtain ⟨pool1, pc, evs⟩ := r
    rw [hw] at hs
    simp only [Option.some.injEq] at hs
    subst hs
    rcases thpool_thread_locked_spec hi.hchain hi.htail hw with
      ⟨_, _, hp, hpc1, hev⟩ | ⟨_, hp, hpc1, hev⟩ |
      ⟨b, rest, hns, _, hpc1, hev, _, _, hc1, htl1⟩
    · subst hp hpc1 hev
      have hn : ns1 = ns := chain_unique hi1.hchain hi.hchain
      subst hn
      refine ⟨fun hd => ?_, fun pc hpc => ?_⟩
      · have := hh.fifo hd
        rcases hfirst with e | e <;> subst e <;>
          simpa [tag, submitted, dequeued] using this
      · obtain ⟨hws, hpc2⟩ := single_set hold hpc
        subst hpc2
        have := hh.single old hws
        rw [hidle] at this
        rcases hfirst with e | e <;> subst e <;>
          simpa [tag, executed, dequeued, inflight] using this
    · subst hp hpc1 hev
      have hn : ns1 = ns := chain_unique hi1.hchain hi.hchain
      subst hn
      refine ⟨fun hd => ?_, fun pc hpc => ?_⟩
      · have := hh.fifo hd
        rcases hfirst with e | e <;> subst e <;>
          simpa [tag, submitted, dequeued] using this
      · obtain ⟨hws, hpc2⟩ := single_set hold hpc
        subst hpc2
        have := hh.single old hws
        rw [hidle] at this
        rcases hfirst with e | e <;> subst e <;>
          simpa [tag, executed, dequeued, inflight] using this
    · subst hns hpc1 hev
      have hn : ns1 = rest := chain_unique hi1.hchain hc1
      subst hn
      refine ⟨fun hd => ?_, fun pc hpc => ?_⟩
      · have := hh.fifo hd
        rcases hfirst with e | e <;> subst e <;>
          simpa [tag, submitted, dequeued, contents] using this
      · obtain ⟨hws, hpc2⟩ := single_set hold hpc
        subst hpc2
        have := hh.single old hws
        rw [hidle] at this
        rcases hfirst with e | e <;> subst e <;>
          simpa [tag, executed, dequeued, inflight] using this

/-- Every move of the machine keeps the history invariant. -/
theorem step_hist {s s1 : State} {a : Action} {ns ns1 : List Nat}
    (hi : Inv s ns) (hh : Hist s ns) (hs : step s a = some s1) (hi1 : Inv s1 ns1) :
    Hist s1 ns1 := by
  cases a with
  | add p f x mem =>
    simp only [step] at hs
    cases hr : thpool_add s.heap s.pool f x mem with
    | none => rw [hr] at hs; cases hs
    | some r =>
      rw [hr] at hs
      simp only [Option.some.injEq] at hs
      subst hs
      rcases thpool_add_spec hi.hchain hi.htail hr with
        ⟨_, hheap, hp, _, hev⟩ |
        ⟨task, junk, _, hfresh, _, _, hev, _, _, hc1, _, hm, htask, hcont, _, _⟩
      · have hc2 : chain r.heap r.pool.queue.head ns := by
          rw [hheap, hp]; exact hi.hchain
        have hn : ns1 = ns := chain_unique hi1.hchain hc2
        subst hn
        refine ⟨fun hd => ?_, fun pc hpc => ?_⟩
        · have := hh.fifo hd
          show submitted (s.trace ++ tag (Tid.producer p) r.events) =
            dequeued (s.trace ++ tag (Tid.producer p) r.events) ++ contents r.heap ns1
          rw [hheap]
          rcases hev with e | e <;> rw [e] <;>
            simpa [tag, submitted, dequeued] using this
        · have := hh.single pc hpc
          show dequeued (s.trace ++ tag (Tid.producer p) r.events) =
            executed (s.trace ++ tag (Tid.producer p) r.events) ++ inflight r.heap pc
          rw [hheap]
          rcases hev with e | e <;> rw [e] <;>
            simpa [tag, executed, dequeued] using this
      · have hn : ns1 = ns ++ [task] := chain_unique hi1.hchain hc1
        subst hn
        refine ⟨fun hd => ?_, fun pc hpc => ?_⟩
        · have := hh.fifo hd
          show submitted (s.trace ++ tag (Tid.producer p) r.events) =
            dequeued (s.trace ++ tag (Tid.producer p) r.events) ++
              contents r.heap (ns ++ [task])
          have hcs : contents r.heap (ns ++ [task]) = contents s.heap ns ++ [(f, x)] := by
            have h1 : contents r.heap ns = contents s.heap ns :=
              contents_congr (fun a ha => hcont a (fun e => hm (e ▸ ha)))
            simp only [contents, List.map_append, List.map_cons, List.map_nil] at h1 ⊢
            rw [h1, htask]
          rw [hcs, hev, submitted_append, dequeued_append, this]
          simp [tag, submitted, dequeued]
        · have := hh.single pc hpc
          show dequeued (s.trace ++ tag (Tid.producer p) r.events) =
            executed (s.trace ++ tag (Tid.producer p) r.events) ++ inflight r.heap pc
          have hfl : inflight r.heap pc = inflight s.heap pc := by
            cases pc with
            | running t =>
              cases t with
              | none => rfl
              | some b =>
                have hw : s.workers[0]? = some (WorkerPc.running (some b)) := by
                  have e : s.workers = [WorkerPc.running (some b)] := hpc
                  rw [e]; rfl
                have hne : b ≠ task := fun e => (hi.hown 0 b hw).1 (e ▸ hfresh)
                simp only [inflight, hcont b hne]
            | top => rfl
            | waiting => rfl
            | exited => rfl
          rw [hfl, hev]
          simpa [tag, executed, dequeued] using this
  | worker i =>
    simp only [step] at hs
    split at hs
    · next hw => exact thpool_thread_sync_hist hi hh hw rfl (Or.inl rfl) hs hi1
    · next hw => exact thpool_thread_sync_hist hi hh hw rfl (Or.inr rfl) hs hi1
    · next task hw =>
      cases task with
      | none =>
        simp only [thpool_thread_run, Option.some.injEq] at hs
        subst hs
        have hn : ns1 = ns := chain_unique hi1.hchain hi.hchain
        subst hn
        refine ⟨fun hd => ?_, fun pc hpc => ?_⟩
        · have := hh.fifo hd
          simpa [tag] using this
        · obtain ⟨hws, hpc2⟩ := single_set hw hpc
          subst hpc2
          have := hh.single _ hws
          simpa [tag, inflight] using this
      | some t =>
        obtain ⟨halive, hnq⟩ := hi.hown i t hw
        cases ht : s.heap t with
        | none => exact absurd ht halive
        | some n =>
          simp only [thpool_thread_run, ht, Option.some.injEq] at hs
          subst hs
          have hc2 : chain (s.heap.set t none) s.pool.queue.head ns :=
            chain_frame hi.hchain (fun b hb => Heap.set_other _ _ (fun e => hnq (e ▸ hb)))
          have hn : ns1 = ns := chain_unique hi1.hchain hc2
          subst hn
          refine ⟨fun hd => ?_, fun pc hpc => ?_⟩
          · have := hh.fifo hd
            have hcs : contents (s.heap.set t none) ns1 = contents s.heap ns1 :=
              contents_congr (fun a ha =>
                task_at_congr (Heap.set_other _ _ (fun e => hnq (e ▸ ha))))
            show submitted (s.trace ++ tag (Tid.worker i) [Event.exec t n.func n.arg]) =
              dequeued (s.trace ++ tag (Tid.worker i) [Event.exec t n.func n.arg]) ++
                contents (s.heap.set t none) ns1
            rw [hcs]
            simpa [tag, submitted, dequeued] using this
          · obtain ⟨hws, hpc2⟩ := single_set hw hpc
            subst hpc2
            have := hh.single _ hws
            simp only [inflight, task_at, ht] at this
            show dequeued (s.trace ++ tag (Tid.worker i) [Event.exec t n.func n.arg]) =
              executed (s.trace ++ tag (Tid.worker i) [Event.exec t n.func n.arg]) ++
                inflight (s.heap.set t none) WorkerPc.top
            simpa [tag, executed, dequeued, inflight] using this
    · cases hs
  | destroy fuel =>
    simp only [step] at hs
    split at hs
    · cases hd : thpool_destroy_drain fuel s.heap s.pool.queue.head with
      | none => rw [hd] at hs; cases hs
      | some h1 =>
        rw [hd] at hs
        simp only [Option.some.injEq] at hs
        subst hs
        obtain ⟨_, hkeep⟩ := thpool_destroy_drain_sound ns fuel s.heap h1 _ hi.hchain hd
        refine ⟨fun hd => absurd hd (thpool_destroy_loop_not_idle _), fun pc hpc => ?_⟩
        have := hh.single pc hpc
        obtain ⟨_, q2, q3⟩ := thpool_destroy_loop_quiet
          { s.pool with queue := { head := none, tail := none }, shutdown := 1 }
          [Event.lock, Event.set_shutdown] (Or.inl rfl)
        have hfl : inflight h1 pc = inflight s.heap pc := by
          cases pc with
          | running t =>
            cases t with
            | none => rfl
            | some b =>
              have hw : s.workers[0]? = some (WorkerPc.running (some b)) := by
                have e : s.workers = [WorkerPc.running (some b)] := hpc
                rw [e]; rfl
              simp only [inflight, task_at_congr (hkeep b (hi.hown 0 b hw).2)]
          | top => rfl
          | waiting => rfl
          | exited => rfl
        show dequeued (s.trace ++ tag Tid.destroyer ([Event.lock, Event.set_shutdown] ++
            (thpool_destroy_loop _).2)) =
          executed (s.trace ++ tag Tid.destroyer ([Event.lock, Event.set_shutdown] ++
            (thpool_destroy_loop _).2)) ++ inflight h1 pc
        rw [dequeued_append, executed_append, q2, q3, hfl]
        simpa using this
    · cases hs
  | join rc =>
    simp only [step] at hs
    split at hs
    · split at hs
      · split at hs
        · simp only [Option.some.injEq] at hs
          subst hs
          have hn : ns1 = ns := chain_unique hi1.hchain hi.hchain
          subst hn
          refine ⟨fun hd => (by cases hd), fun pc hpc => ?_⟩
          have := hh.single pc hpc
          simpa [tag, executed, dequeued, thpool_destroy_exit] using this
        · split at hs
          · simp only [Option.some.injEq] at hs
            subst hs
            have hn : ns1 = ns := chain_unique hi1.hchain hi.hchain
            subst hn
            refine ⟨fun hd => (by cases hd), fun pc hpc => ?_⟩
            have := hh.single pc hpc
            simpa [tag, executed, dequeued] using this
          · cases hs
      · cases hs
    · cases hs
  | relock =>
    simp only [step] at hs
    split at hs
    · split at hs
      · cases hs
      · simp only [Option.some.injEq] at hs
        subst hs
        have hn : ns1 = ns := chain_unique hi1.hchain hi.hchain
        subst hn
        refine ⟨fun hd => absurd hd (thpool_destroy_loop_not_idle _), fun pc hpc => ?_⟩
        have := hh.single pc hpc
        obtain ⟨_, q2, q3⟩ := thpool_destroy_loop_quiet s.pool [Event.lock] (Or.inr rfl)
        show dequeued (s.trace ++ tag Tid.destroyer ([Event.lock] ++ (thpool_destroy_loop _).2)) =
          executed (s.trace ++ tag Tid.destroyer ([Event.lock] ++ (thpool_destroy_loop _).2)) ++
            inflight s.heap pc
        rw [dequeued_append, executed_append, q2, q3]
        simpa using this
    · cases hs

theorem run_hist : ∀ (acts : List Action) {s s1 : State} {ns : List Nat},
    Inv s ns → Hist s ns → run s acts = some s1 → ∃ ns1, Inv s1 ns1 ∧ Hist s1 ns1
  | [], s, s1, ns, hi, hh, hr => by
    simp only [run, Option.some.injEq] at hr
    subst hr
    exact ⟨ns, hi, hh⟩
  | a :: rest, s, s1, ns, hi, hh, hr => by
    simp only [run] at hr
    cases hs : step s a with
    | none => rw [hs] at hr; cases hr
    | some s2 =>
      rw [hs] at hr
      obtain ⟨ns2, hi2⟩ := step_inv hi hs
      exact run_hist rest hi2 (step_hist hi hh hs hi2) hr

/-! ## Runs without `thpool_destroy` -/

theorem thpool_thread_locked_events {h : Heap} {pool pool1 : thpool_t} {pc : WorkerPc}
    {evs : List Event} (hr : thpool_thread_locked h pool = some (pool1, pc, evs)) :
    ∀ e ∈ evs, is_enqueue e = false := by
  unfold thpool_thread_locked at hr
  split at hr
  · simp only [Option.some.injEq, Prod.mk.injEq] at hr
    obtain ⟨_, _, h3⟩ := hr
    subst h3
    simp [is_enqueue]
  · split at hr
    · simp only [Option.some.injEq, Prod.mk.injEq] at hr
      obtain ⟨_, _, h3⟩ := hr
      subst h3
      simp [is_enqueue]
    · split at hr
      · cases hr
      · next q task _ =>
        simp only [Option.some.injEq, Prod.mk.injEq] at hr
        obtain ⟨_, _, h3⟩ := hr
        subst h3
        cases task <;> simp [is_enqueue]

theorem thpool_thread_run_events {h h1 : Heap} {task : Option Nat} {evs : List Event}
    (hr : thpool_thread_run h task = some (h1, evs)) : ∀ e ∈ evs, is_enqueue e = false := by
  unfold thpool_thread_run at hr
  split at hr
  · simp only [Option.some.injEq, Prod.mk.injEq] at hr
    obtain ⟨_, h3⟩ := hr
    subst h3
    simp
  · split at hr
    · cases hr
    · simp only [Option.some.injEq, Prod.mk.injEq] at hr
      obtain ⟨_, h3⟩ := hr
      subst h3
      simp [is_enqueue]

theorem thpool_destroy_loop_events (pool : thpool_t) :
    ∀ e ∈ (thpool_destroy_loop pool).2, is_enqueue e = false := by
  unfold thpool_destroy_loop
  split <;> simp [is_enqueue, thpool_destroy_exit]

theorem enqueues_below_append {P : Nat} {tr : List (Tid × Event)} {t : Tid}
    {evs : List Event} (h : enqueues_below P tr)
    (hev : (∀ e ∈ evs, is_enqueue e = false) ∨ ∃ p, p < P ∧ t = Tid.producer p) :
    enqueues_below P (tr ++ tag t evs) := by
  intro e he hq
  rcases List.mem_append.mp he with h1 | h1
  · exact h e h1 hq
  · simp only [tag, List.mem_map] at h1
    obtain ⟨ev, hev1, hev2⟩ := h1
    subst hev2
    rcases hev with hn | hp
    · rw [hn ev hev1] at hq
      cases hq
    · exact hp

theorem thpool_thread_sync_tagged {P : Nat} {s s1 : State} {i : Nat} {first : Event}
    (hfirst : is_enqueue first = false) (ht : enqueues_below P s.trace)
    (hs : thpool_thread_sync s i first = some s1) : enqueues_below P s1.trace := by
  unfold thpool_thread_sync at hs
  cases hw : thpool_thread_locked s.heap s.pool with
  | none => rw [hw] at hs; cases hs
  | some r =>
    obtain ⟨pool1, pc, evs⟩ := r
    rw [hw] at hs
    simp only [Option.some.injEq] at hs
    subst hs
    refine enqueues_below_append ht (Or.inl ?_)
    intro e he
    rcases List.mem_cons.mp he with rfl | he1
    · exact hfirst
    · exact thpool_thread_locked_events hw e he1

/-- A move that is not `destroy` leaves `thpool_destroy` uncalled, keeps the
number of workers, and tags the enqueue it makes with its producer. -/
theorem step_quiet {P : Nat} {s s1 : State} {a : Action}
    (hno : is_destroy a = false) (hp : producer_below P a = true)
    (hidle : s.destroy = DestroyPc.idle) (ht : enqueues_below P s.trace)
    (hs : step s a = some s1) :
    s1.destroy = DestroyPc.idle ∧ enqueues_below P s1.trace ∧
      s1.pool.shutdown = s.pool.shutdown := by
  cases a with
  | add p f x mem =>
    simp only [step] at hs
    cases hr : thpool_add s.heap s.pool f x mem with
    | none => rw [hr] at hs; cases hs
    | some r =>
      rw [hr] at hs
      simp only [Option.some.injEq] at hs
      subst hs
      exact ⟨hidle, enqueues_below_append ht (Or.inr ⟨p, by simpa [producer_below] using hp, rfl⟩),
        (thpool_add_fields hr).2⟩
  | worker i =>
    simp only [step] at hs
    have hsync : ∀ first, thpool_thread_sync s i first = some s1 →
        s1.destroy = DestroyPc.idle ∧ s1.pool.shutdown = s.pool.shutdown := by
      intro first h1
      unfold thpool_thread_sync at h1
      cases hw : thpool_thread_locked s.heap s.pool with
      | none => rw [hw] at h1; cases h1
      | some r =>
        obtain ⟨pool1, pc, evs⟩ := r
        rw [hw] at h1
        simp only [Option.some.injEq] at h1
        subst h1
        exact ⟨hidle, (thpool_thread_locked_fields hw).1⟩
    split at hs
    · exact ⟨(hsync _ hs).1,
        thpool_thread_sync_tagged (show is_enqueue Event.lock = false from rfl) ht hs,
        (hsync _ hs).2⟩
    · exact ⟨(hsync _ hs).1,
        thpool_thread_sync_tagged (show is_enqueue Event.wait_acquire = false from rfl) ht hs,
        (hsync _ hs).2⟩
    · next task hw =>
      cases hrun : thpool_thread_run s.heap task with
      | none => rw [hrun] at hs; cases hs
      | some r =>
        obtain ⟨h1, evs⟩ := r
        rw [hrun] at hs
        simp only [Option.some.injEq] at hs
        subst hs
        exact ⟨hidle, enqueues_below_append ht (Or.inl (thpool_thread_run_events hrun)), rfl⟩
    · cases hs
  | destroy fuel => simp [is_destroy] at hno
  | join rc =>
    simp only [step, hidle] at hs
    cases hs
  | relock =>
    simp only [step, hidle] at hs
    cases hs

theorem run_quiet {P : Nat} : ∀ (acts : List Action) {s s1 : State},
    (∀ a ∈ acts, is_destroy a = false) →
    (∀ a ∈ acts, producer_below P a = true) →
    s.destroy = DestroyPc.idle → enqueues_below P s.trace →
    run s acts = some s1 →
    s1.destroy = DestroyPc.idle ∧ enqueues_below P s1.trace ∧
      s1.pool.shutdown = s.pool.shutdown
  | [], s, s1, _, _, hidle, ht, hr => by
    simp only [run, Option.some.injEq] at hr
    subst hr
    exact ⟨hidle, ht, rfl⟩
  | a :: rest, s, s1, hno, hp, hidle, ht, hr => by
    simp only [run] at hr
    cases hs : step s a with
    | none => rw [hs] at hr; cases hr
    | some s2 =>
      rw [hs] at hr
      obtain ⟨h1, h2, h3⟩ := step_quiet (hno a (List.mem_cons_self a rest))
        (hp a (List.mem_cons_self a rest)) hidle ht hs
      obtain ⟨h4, h5, h6⟩ := run_quiet rest
        (fun b hb => hno b (List.mem_cons_of_mem a hb))
        (fun b hb => hp b (List.mem_cons_of_mem a hb)) h1 h2 hr
      exact ⟨h4, h5, h6.trans h3⟩

/-- When every enqueue is made by a producer numbered below `P`, the number
of accepted tasks is the sum over these producers of their accepted tasks. -/
theorem submitted_length_sum (P : Nat) : ∀ (tr : List (Tid × Event)),
    enqueues_below P tr →
    (submitted tr).length = ∑ p in Finset.range P, (submitted_by p tr).length
  | [], _ => by simp [submitted, submitted_by]
  | e :: tr, h => by
    have ih := submitted_length_sum P tr (fun e1 he1 => h e1 (List.mem_cons_of_mem e he1))
    obtain ⟨t, ev⟩ := e
    by_cases hq : is_enqueue ev = true
    · obtain ⟨p0, hp0, ht0⟩ := h (t, ev) (List.mem_cons_self _ _) hq
      have ht0 : t = Tid.producer p0 := ht0
      subst ht0
      cases ev with
      | enqueue task f x =>
        have h1 : (submitted ((Tid.producer p0, Event.enqueue task f x) :: tr)).length =
            (submitted tr).length + 1 := by
          simp [submitted]
        have h2 : ∀ p, (submitted_by p ((Tid.producer p0, Event.enqueue task f x) :: tr)).length =
            (submitted_by p tr).length + (if p0 = p then 1 else 0) := by
          intro p
          by_cases hpp : p0 = p
          · subst hpp
            simp [submitted_by, submitted, List.filter_cons]
          · simp [submitted_by, submitted, List.filter_cons, hpp]
        rw [h1, ih]
        simp only [h2, Finset.sum_add_distrib, Finset.sum_ite_eq, Finset.mem_range, hp0, if_true]
      | _ => simp [is_enqueue] at hq
    · have h1 : submitted ((t, ev) :: tr) = submitted tr := by
        cases ev <;> first | rfl | simp [is_enqueue] at hq
      have h2 : ∀ p, submitted_by p ((t, ev) :: tr) = submitted_by p tr := by
        intro p
        simp only [submitted_by, List.filter_cons]
        split
        · cases ev <;> first | rfl | simp [is_enqueue] at hq
        · rfl
      rw [h1, ih]
      simp only [h2]

theorem step_workers_length {s s1 : State} {a : Action} (hs : step s a = some s1) :
    s1.workers.length = s.workers.length := by
  cases a with
  | add p f x mem =>
    simp only [step] at hs
    split at hs
    · cases hs
    · simp only [Option.some.injEq] at hs
      subst hs
      rfl
  | worker i =>
    simp only [step] at hs
    have hsync : ∀ first, thpool_thread_sync s i first = some s1 →
        s1.workers.length = s.workers.length := by
      intro first h1
      unfold thpool_thread_sync at h1
      split at h1
      · cases h1
      · simp only [Option.some.injEq] at h1
        subst h1
        simp
    split at hs
    · exact hsync _ hs
    · exact hsync _ hs
    · split at hs
      · cases hs
      · simp only [Option.some.injEq] at hs
        subst hs
        simp
    · cases hs
  | destroy fuel =>
    simp only [step] at hs
    split at hs
    · split at hs
      · cases hs
      · simp only [Option.some.injEq] at hs
        subst hs
        rfl
    · cases hs
  | join rc =>
    simp only [step] at hs
    split at hs
    · split at hs
      · split at hs
        · simp only [Option.some.injEq] at hs
          subst hs
          rfl
        · split at hs
          · simp only [Option.some.injEq] at hs
            subst hs
            rfl
          · cases hs
      · cases hs
    · cases hs
  | relock =>
    simp only [step] at hs
    split at hs
    · split at hs
      · cases hs
      · simp only [Option.some.injEq] at hs
        subst hs
        rfl
    · cases hs

theorem run_workers_length : ∀ (acts : List Action) {s s1 : State},
    run s acts = some s1 → s1.workers.length = s.workers.length
  | [], s, s1, hr => by
    simp only [run, Option.some.injEq] at hr
    subst hr
    rfl
  | a :: rest, s, s1, hr => by
    simp only [run] at hr
    cases hs : step s a with
    | none => rw [hs] at hr; cases hr
    | some s2 =>
      rw [hs] at hr
      rw [run_workers_length rest hr, step_workers_length hs]

/-- Claim C9: take a pool with an empty queue and any number of workers, and
any interleaving of `thpool_add` calls by producers numbered below `P` with
worker blocks, without `thpool_destroy`.  At every point the queue is a
well-formed chain `ns`, and the tasks accepted so far are exactly, in order
and with multiplicity, the tasks dequeued so far followed by the tasks still
queued; the number of dequeues plus the queue length is the sum over the
producers of their accepted tasks.  Hence, when each of the `P` producers has
had `T` tasks accepted and the queue is empty, the workers have performed
exactly `P * T` dequeues. -/
theorem no_task_lost_or_delivered_twice (h0 : Heap) (pool : thpool_t) (n P T : Nat)
    (acts : List Action) (s : State)
    (hq : pool.queue = { head := none, tail := none })
    (hno : ∀ a ∈ acts, is_destroy a = false)
    (hbelow : ∀ a ∈ acts, producer_below P a = true)
    (hr : run (init_state h0 pool n) acts = some s) :
    ∃ ns, chain s.heap s.pool.queue.head ns ∧ s.pool.queue.tail = ns.getLast? ∧
      submitted s.trace = dequeued s.trace ++ contents s.heap ns ∧
      (dequeued s.trace).length + ns.length =
        ∑ p in Finset.range P, (submitted_by p s.trace).length ∧
      ((∀ p, p < P → (submitted_by p s.trace).length = T) → ns = [] →
        (dequeued s.trace).length = P * T) := by
  obtain ⟨ns, hi, hh⟩ := run_hist acts (inv_init h0 pool n hq) (hist_init h0 pool n) hr
  have h0t : enqueues_below P (init_state h0 pool n).trace := by
    intro e he
    cases he
  obtain ⟨hidle, htag, _⟩ := run_quiet acts hno hbelow rfl h0t hr
  have hfifo := hh.fifo hidle
  have hsum := submitted_length_sum P s.trace htag
  have hlen : (dequeued s.trace).length + ns.length =
      ∑ p in Finset.range P, (submitted_by p s.trace).length := by
    rw [← hsum, hfifo]
    simp [contents]
  refine ⟨ns, hi.hchain, hi.htail, hfifo, hlen, ?_⟩
  intro hT hempty
  subst hempty
  have hconst : ∑ p in Finset.range P, (submitted_by p s.trace).length = P * T := by
    rw [Finset.sum_congr rfl (fun p hp => hT p (Finset.mem_range.mp hp))]
    simp
  simpa [hconst] using hlen

/-- The statement of C9 on the run `two_producers`: two producers, one task
each, two dequeues. -/
theorem no_task_lost_or_delivered_twice_witness :
    run (init_state Heap.empty (pool_of 2) 2) two_producers =
        some (run_or (init_state Heap.empty (pool_of 2) 2) two_producers) ∧
      submitted (run_or (init_state Heap.empty (pool_of 2) 2) two_producers).trace =
        [(10, 100), (11, 101)] ∧
      (dequeued (run_or (init_state Heap.empty (pool_of 2) 2) two_producers).trace).length =
        2 * 1 := by
  refine ⟨rfl, by decide, ?_⟩
  obtain ⟨ns, hc, _, _, _, himp⟩ := no_task_lost_or_delivered_twice Heap.empty (pool_of 2) 2 2 1
    two_producers (run_or (init_state Heap.empty (pool_of 2) 2) two_producers) rfl
    (by decide) (by decide) rfl
  refine himp (by decide) ?_
  have hh : (run_or (init_state Heap.empty (pool_of 2) 2) two_producers).pool.queue.head =
      none := rfl
  rw [hh] at hc
  cases ns with
  | nil => rfl
  | cons a r => cases hc.1

/-! ## A single worker -/

theorem submitted_tag_quiet {t : Tid} {evs : List Event}
    (h : ∀ e ∈ evs, is_enqueue e = false) : submitted (tag t evs) = [] := by
  induction evs with
  | nil => rfl
  | cons e rest ih =>
    have h1 := h e (List.mem_cons_self e rest)
    have h2 := ih (fun e1 he1 => h e1 (List.mem_cons_of_mem e he1))
    simp only [tag, List.map_cons, submitted, List.filterMap_cons] at h2 ⊢
    cases e <;> first | exact h2 | (simp [is_enqueue] at h1)

/-- A worker block accepts no task, leaves `thpool_destroy` as it is, and,
when the shutdown flag is clear, does not make the worker return. -/
theorem step_worker_facts {s s1 : State} {i : Nat}
    (hs : step s (Action.worker i) = some s1) :
    submitted s1.trace = submitted s.trace ∧ s1.destroy = s.destroy ∧
      s1.pool.shutdown = s.pool.shutdown ∧
      (s.pool.shutdown = 0 → (∀ pc ∈ s.workers, pc ≠ WorkerPc.exited) →
        ∀ pc ∈ s1.workers, pc ≠ WorkerPc.exited) := by
  simp only [step] at hs
  have hsync : ∀ first, is_enqueue first = false → thpool_thread_sync s i first = some s1 →
      submitted s1.trace = submitted s.trace ∧ s1.destroy = s.destroy ∧
      s1.pool.shutdown = s.pool.shutdown ∧
      (s.pool.shutdown = 0 → (∀ pc ∈ s.workers, pc ≠ WorkerPc.exited) →
        ∀ pc ∈ s1.workers, pc ≠ WorkerPc.exited) := by
    intro first hf h1
    unfold thpool_thread_sync at h1
    cases hw : thpool_thread_locked s.heap s.pool with
    | none => rw [hw] at h1; cases h1
    | some r =>
      obtain ⟨pool1, pc, evs⟩ := r
      rw [hw] at h1
      simp only [Option.some.injEq] at h1
      subst h1
      have hq : submitted (tag (Tid.worker i) (first :: evs)) = [] :=
        submitted_tag_quiet (fun e he => by
          rcases List.mem_cons.mp he with rfl | he1
          · exact hf
          · exact thpool_thread_locked_events hw e he1)
      obtain ⟨hsd, hcase⟩ := thpool_thread_locked_fields hw
      refine ⟨by simp [hq], rfl, hsd, ?_⟩
      intro h0 hal pc1 hpc1
      rcases List.mem_or_eq_of_mem_set hpc1 with h2 | h2
      · exact hal pc1 h2
      · subst h2
        rcases hcase with ⟨_, _, h3⟩ | ⟨h3, _, _⟩
        · exact absurd h0 h3
        · exact h3
  split at hs
  · exact hsync Event.lock rfl hs
  · exact hsync Event.wait_acquire rfl hs
  · next task hw =>
    cases hrun : thpool_thread_run s.heap task with
    | none => rw [hrun] at hs; cases hs
    | some r =>
      obtain ⟨h1, evs⟩ := r
      rw [hrun] at hs
      simp only [Option.some.injEq] at hs
      subst hs
      refine ⟨by simp [submitted_tag_quiet (thpool_thread_run_events hrun)], rfl, rfl, ?_⟩
      intro _ hal pc1 hpc1
      rcases List.mem_or_eq_of_mem_set hpc1 with h2 | h2
      · exact hal pc1 h2
      · subst h2
        simp
  · cases hs

/-- A move that is not `destroy`, on a pool whose shutdown flag is clear,
makes no worker return. -/
theorem step_alive {s s1 : State} {a : Action} (hno : is_destroy a = false)
    (hsd : s.pool.shutdown = 0) (hal : ∀ pc ∈ s.workers, pc ≠ WorkerPc.exited)
    (hidle : s.destroy = DestroyPc.idle) (hs : step s a = some s1) :
    ∀ pc ∈ s1.workers, pc ≠ WorkerPc.exited := by
  cases a with
  | add p f x mem =>
    simp only [step] at hs
    split at hs
    · cases hs
    · simp only [Option.some.injEq] at hs
      subst hs
      exact hal
  | worker i => exact (step_worker_facts hs).2.2.2 hsd hal
  | destroy fuel => simp [is_destroy] at hno
  | join rc =>
    simp only [step, hidle] at hs
    cases hs
  | relock =>
    simp only [step, hidle] at hs
    cases hs

/-- A move that is not `destroy` leaves `thpool_destroy` uncalled and the
shutdown flag as it is. -/
theorem step_idle {s s1 : State} {a : Action} (hno : is_destroy a = false)
    (hidle : s.destroy = DestroyPc.idle) (hs : step s a = some s1) :
    s1.destroy = DestroyPc.idle ∧ s1.pool.shutdown = s.pool.shutdown := by
  cases a with
  | add p f x mem =>
    simp only [step] at hs
    cases hadd : thpool_add s.heap s.pool f x mem with
    | none => rw [hadd] at hs; cases hs
    | some r =>
      rw [hadd] at hs
      simp only [Option.some.injEq] at hs
      subst hs
      exact ⟨hidle, (thpool_add_fields hadd).2⟩
  | worker i =>
    obtain ⟨_, h2, h3, _⟩ := step_worker_facts hs
    exact ⟨h2.trans hidle, h3⟩
  | destroy fuel => simp [is_destroy] at hno
  | join rc =>
    simp only [step, hidle] at hs
    cases hs
  | relock =>
    simp only [step, hidle] at hs
    cases hs

theorem run_alive : ∀ (acts : List Action) {s s1 : State},
    (∀ a ∈ acts, is_destroy a = false) → s.pool.shutdown = 0 →
    (∀ pc ∈ s.workers, pc ≠ WorkerPc.exited) → s.destroy = DestroyPc.idle →
    run s acts = some s1 →
    (∀ pc ∈ s1.workers, pc ≠ WorkerPc.exited) ∧ s1.destroy = DestroyPc.idle ∧
      s1.pool.shutdown = 0
  | [], s, s1, _, hsd, hal, hidle, hr => by
    simp only [run, Option.some.injEq] at hr
    subst hr
    exact ⟨hal, hidle, hsd⟩
  | a :: rest, s, s1, hno, hsd, hal, hidle, hr => by
    simp only [run] at hr
    cases hs : step s a with
    | none => rw [hs] at hr; cases hr
    | some s2 =>
      rw [hs] at hr
      have hna := hno a (List.mem_cons_self a rest)
      obtain ⟨h1, h2⟩ := step_idle hna hidle hs
      exact run_alive rest (fun b hb => hno b (List.mem_cons_of_mem a hb)) (h2.trans hsd)
        (step_alive hna hsd hal hidle hs) h1 hr

theorem run_workers_submitted : ∀ (k : Nat) {s s1 : State},
    run s (List.replicate k (Action.worker 0)) = some s1 →
    submitted s1.trace = submitted s.trace
  | 0, s, s1, hr => by
    simp only [List.replicate_zero, run, Option.some.injEq] at hr
    subst hr
    rfl
  | k + 1, s, s1, hr => by
    simp only [List.replicate_succ, run] at hr
    cases hs : step s (Action.worker 0) with
    | none => rw [hs] at hr; cases hr
    | some s2 =>
      rw [hs] at hr
      rw [run_workers_submitted k hr, (step_worker_facts hs).1]

theorem run_append : ∀ (acts more : List Action) {s s1 s2 : State},
    run s acts = some s1 → run s1 more = some s2 → run s (acts ++ more) = some s2
  | [], more, s, s1, s2, h1, h2 => by
    simp only [run, Option.some.injEq] at h1
    subst h1
    exact h2
  | a :: rest, more, s, s1, s2, h1, h2 => by
    simp only [run, List.cons_append] at h1 ⊢
    cases hs : step s a with
    | none => rw [hs] at h1; cases h1
    | some s3 =>
      rw [hs] at h1
      exact run_append rest more h1 h2

/-- A lone worker that is not holding a task empties a well-formed queue,
in two blocks per queued task. -/
theorem worker_empties_queue : ∀ (ns : List Nat) (s : State) (pc : WorkerPc),
    Inv s ns → s.workers = [pc] → s.pool.shutdown = 0 →
    (pc = WorkerPc.top ∨ pc = WorkerPc.waiting) →
    ∃ s1, run s (List.replicate (2 * ns.length) (Action.worker 0)) = some s1 ∧
      Inv s1 [] ∧ (∃ pc1, s1.workers = [pc1] ∧ inflight s1.heap pc1 = [])
  | [], s, pc, hi, hws, _, hpc => by
    refine ⟨s, rfl, hi, pc, hws, ?_⟩
    rcases hpc with e | e <;> subst e <;> rfl
  | b :: rest, s, pc, hi, hws, hsd, hpc => by
    have hh : s.pool.queue.head = some b := hi.hchain.1
    obtain ⟨q1, hpull, hc1, _⟩ := task_queue_pull_spec hi.hchain hi.htail
    have hwl : thpool_thread_locked s.heap s.pool =
        some ({ s.pool with queue := q1 }, WorkerPc.running (some b),
          [Event.dequeue b (task_at s.heap b).1 (task_at s.heap b).2, Event.unlock]) := by
      simp [thpool_thread_locked, task_queue_empty, hh, hsd, hpull]
    have hc1 : chain s.heap q1.head rest := hc1
    have hw0 : s.workers[0]? = some pc := by rw [hws]; rfl
    -- first block: the worker takes `b`
    obtain ⟨s2, hst1, hw2, hsd2, hc2⟩ : ∃ s2, step s (Action.worker 0) = some s2 ∧
        s2.workers = [WorkerPc.running (some b)] ∧
        s2.pool.shutdown = 0 ∧ chain s2.heap s2.pool.queue.head rest := by
      cases hstep : step s (Action.worker 0) with
      | none =>
        rcases hpc with e | e <;> subst e <;>
          simp [step, hw0, thpool_thread_sync, hwl] at hstep
      | some s2 =>
        rcases hpc with e | e <;> subst e <;>
          simp only [step, hw0, thpool_thread_sync, hwl, Option.some.injEq] at hstep <;>
          subst hstep <;>
          exact ⟨_, rfl, by simp [hws], hsd, hc1⟩
    obtain ⟨ns2, hi2⟩ := step_inv hi hst1
    have hn2 : ns2 = rest := chain_unique hi2.hchain hc2
    subst hn2
    -- second block: the worker runs `b` and frees the node
    have hw2' : s2.workers[0]? = some (WorkerPc.running (some b)) := by rw [hw2]; rfl
    obtain ⟨halive, hnq⟩ := hi2.hown 0 b hw2'
    obtain ⟨n, hn⟩ : ∃ n, s2.heap b = some n := by
      cases hg : s2.heap b with
      | none => exact absurd hg halive
      | some n => exact ⟨n, rfl⟩
    obtain ⟨s3, hst2, hw3, hsd3, hc3⟩ : ∃ s3, step s2 (Action.worker 0) = some s3 ∧
        s3.workers = [WorkerPc.top] ∧ s3.pool.shutdown = 0 ∧
        chain s3.heap s3.pool.queue.head ns2 := by
      cases hstep : step s2 (Action.worker 0) with
      | none => simp [step, hw2', thpool_thread_run, hn] at hstep
      | some s3 =>
        simp only [step, hw2', thpool_thread_run, hn, Option.some.injEq] at hstep
        subst hstep
        exact ⟨_, rfl, by simp [hw2], hsd2, chain_frame hi2.hchain
          (fun a ha => Heap.set_other _ _ (fun e => hnq (e ▸ ha)))⟩
    obtain ⟨ns3, hi3⟩ := step_inv hi2 hst2
    have hn3 : ns3 = ns2 := chain_unique hi3.hchain hc3
    subst hn3
    obtain ⟨s1, hrun, hi1, hfin⟩ :=
      worker_empties_queue ns3 s3 WorkerPc.top hi3 hw3 hsd3 (Or.inl rfl)
    refine ⟨s1, ?_, hi1, hfin⟩
    have hlen : 2 * (b :: ns3).length = 2 * ns3.length + 1 + 1 := by
      simp only [List.length_cons]; omega
    rw [hlen, List.replicate_succ, List.replicate_succ]
    simp only [run, hst1, hst2]
    exact hrun

/-- A lone worker that has not returned empties a well-formed queue. -/
theorem worker_finishes {ns : List Nat} {s : State} {pc : WorkerPc}
    (hi : Inv s ns) (hws : s.workers = [pc]) (hsd : s.pool.shutdown = 0)
    (hpc : pc ≠ WorkerPc.exited) :
    ∃ k s1, run s (List.replicate k (Action.worker 0)) = some s1 ∧
      Inv s1 [] ∧ (∃ pc1, s1.workers = [pc1] ∧ inflight s1.heap pc1 = []) := by
  cases pc with
  | top =>
    obtain ⟨s1, h1, h2, h3⟩ := worker_empties_queue ns s _ hi hws hsd (Or.inl rfl)
    exact ⟨_, s1, h1, h2, h3⟩
  | waiting =>
    obtain ⟨s1, h1, h2, h3⟩ := worker_empties_queue ns s _ hi hws hsd (Or.inr rfl)
    exact ⟨_, s1, h1, h2, h3⟩
  | exited => exact absurd rfl hpc
  | running task =>
    have hw : s.workers[0]? = some (WorkerPc.running task) := by rw [hws]; rfl
    obtain ⟨s2, hst, hw2, hsd2⟩ : ∃ s2, step s (Action.worker 0) = some s2 ∧
        s2.workers = [WorkerPc.top] ∧ s2.pool.shutdown = 0 := by
      cases task with
      | none =>
        cases hstep : step s (Action.worker 0) with
        | none => simp [step, hw, thpool_thread_run] at hstep
        | some s2 =>
          simp only [step, hw, thpool_thread_run, Option.some.injEq] at hstep
          subst hstep
          exact ⟨_, rfl, by simp [hws], hsd⟩
      | some t =>
        obtain ⟨n, hn⟩ : ∃ n, s.heap t = some n := by
          cases hg : s.heap t with
          | none => exact absurd hg (hi.hown 0 t hw).1
          | some n => exact ⟨n, rfl⟩
        cases hstep : step s (Action.worker 0) with
        | none => simp [step, hw, thpool_thread_run, hn] at hstep
        | some s2 =>
          simp only [step, hw, thpool_thread_run, hn, Option.some.injEq] at hstep
          subst hstep
          exact ⟨_, rfl, by simp [hws], hsd⟩
    obtain ⟨ns2, hi2⟩ := step_inv hi hst
    obtain ⟨s1, h1, h2, h3⟩ := worker_empties_queue ns2 s2 _ hi2 hw2 hsd2 (Or.inl rfl)
    refine ⟨2 * ns2.length + 1, s1, ?_, h2, h3⟩
    rw [List.replicate_succ]
    simp only [run, hst]
    exact h1

/-- Claim C2: take an idle pool (empty queue, shutdown flag clear) with a
single worker, and any interleaving of `thpool_add` calls with the worker's
blocks, without `thpool_destroy`.  At every point the tasks dequeued so far
are an initial segment of the accepted tasks in submission order (the rest
being the queue, in order), and the tasks run so far are the dequeued ones in
the same order, but for the one the worker holds.  From every such point the
worker, left to run, dequeues and runs every accepted task, in exactly
submission order, and on the queue it has emptied `task_queue_pull` returns
`NULL`. -/
theorem single_worker_runs_in_submission_order (h0 : Heap) (pool : thpool_t)
    (acts : List Action) (s : State)
    (hq : pool.queue = { head := none, tail := none }) (hsd : pool.shutdown = 0)
    (hno : ∀ a ∈ acts, is_destroy a = false)
    (hr : run (init_state h0 pool 1) acts = some s) :
    (∃ ns pc, s.workers = [pc] ∧ chain s.heap s.pool.queue.head ns ∧
      submitted s.trace = dequeued s.trace ++ contents s.heap ns ∧
      dequeued s.trace = executed s.trace ++ inflight s.heap pc) ∧
    (∃ k s1, run s (List.replicate k (Action.worker 0)) = some s1 ∧
      dequeued s1.trace = submitted s.trace ∧ executed s1.trace = submitted s.trace ∧
      s1.pool.queue = { head := none, tail := none } ∧
      task_queue_pull s1.heap s1.pool.queue =
        some ({ head := none, tail := none }, none)) := by
  obtain ⟨ns, hi, hh⟩ := run_hist acts (inv_init h0 pool 1 hq) (hist_init h0 pool 1) hr
  have hlen : s.workers.length = 1 := run_workers_length acts hr
  obtain ⟨pc, hws⟩ : ∃ pc, s.workers = [pc] := by
    match hw : s.workers, hlen with
    | [pc], _ => exact ⟨pc, rfl⟩
  have hal0 : ∀ pc ∈ (init_state h0 pool 1).workers, pc ≠ WorkerPc.exited := by
    intro pc hpc
    simp only [init_state, List.replicate_succ, List.replicate_zero, List.mem_singleton] at hpc
    subst hpc
    simp
  obtain ⟨hal, hidle, hsd1⟩ := run_alive acts hno hsd hal0 rfl hr
  refine ⟨⟨ns, pc, hws, hi.hchain, hh.fifo hidle, hh.single pc hws⟩, ?_⟩
  obtain ⟨k, s1, hrun1, hi1, pc1, hws1, hfl1⟩ :=
    worker_finishes hi hws hsd1 (hal pc (by rw [hws]; simp))
  have hno1 : ∀ a ∈ List.replicate k (Action.worker 0), is_destroy a = false := by
    intro a ha
    rw [List.eq_of_mem_replicate ha]
    rfl
  obtain ⟨_, hidle1, _⟩ := run_alive _ hno1 hsd1 hal hidle hrun1
  obtain ⟨ns1, hi1', hh1⟩ := run_hist _ hi hh hrun1
  have hn1 : ns1 = [] := chain_unique hi1'.hchain hi1.hchain
  subst hn1
  have hsub := run_workers_submitted k hrun1
  have hfifo := hh1.fifo hidle1
  have hsingle := hh1.single pc1 hws1
  rw [hfl1] at hsingle
  simp only [contents, List.map_nil, List.append_nil] at hfifo hsingle
  have hhead : s1.pool.queue.head = none := hi1.hchain
  have htail : s1.pool.queue.tail = none := hi1.htail
  have hqe : s1.pool.queue = { head := none, tail := none } := by
    cases hqq : s1.pool.queue with
    | mk hd tl =>
      rw [hqq] at hhead htail
      simp only at hhead htail
      rw [hhead, htail]
  refine ⟨k, s1, hrun1, ?_, ?_, hqe, ?_⟩
  · rw [← hfifo, hsub]
  · rw [← hsingle, ← hfifo, hsub]
  · rw [hqe]
    rfl

/-- The statement of C2 on the run `three_submits`: the worker, left to run,
calls the three tasks in the order of their submission. -/
theorem single_worker_runs_in_submission_order_witness :
    run (init_state Heap.empty (pool_of 1) 1) three_submits =
        some (run_or (init_state Heap.empty (pool_of 1) 1) three_submits) ∧
      submitted (run_or (init_state Heap.empty (pool_of 1) 1) three_submits).trace =
        [(10, 100), (11, 101), (12, 102)] ∧
      ∃ k s1, run (run_or (init_state Heap.empty (pool_of 1) 1) three_submits)
          (List.replicate k (Action.worker 0)) = some s1 ∧
        executed s1.trace = [(10, 100), (11, 101), (12, 102)] := by
  have hsub : submitted (run_or (init_state Heap.empty (pool_of 1) 1) three_submits).trace =
      [(10, 100), (11, 101), (12, 102)] := by decide
  refine ⟨rfl, hsub, ?_⟩
  obtain ⟨_, k, s1, h1, _, h2, _⟩ := single_worker_runs_in_submission_order Heap.empty
    (pool_of 1) three_submits (run_or (init_state Heap.empty (pool_of 1) 1) three_submits)
    rfl rfl (by decide) rfl
  exact ⟨k, s1, h1, by rw [h2, hsub]⟩

/-! ## After `thpool_destroy` has drained the queue -/

theorem post_refl {b : State} (h1 : b.pool.shutdown ≠ 0)
    (h2 : b.destroy ≠ DestroyPc.idle) : Post b b :=
  ⟨h1, h2, fun _ _ h => ⟨h, rfl⟩, [], by simp, fun _ _ _ _ h => by cases h⟩

/-- Appending events that contain no call keeps the last part of `Post`. -/
theorem post_extend {b s : State} {t : Tid} {evs : List Event} {tr : List (Tid × Event)}
    (hp : Post b s) (htr : tr = s.trace ++ tag t evs)
    (hq : ∀ task f x, Event.exec task f x ∈ evs →
      ∃ i, t = Tid.worker i ∧ b.workers[i]? = some (WorkerPc.running (some task)) ∧
        task_at b.heap task = (f, x)) :
    ∃ new, tr = b.trace ++ new ∧
    ∀ t1 task f x, (t1, Event.exec task f x) ∈ new →
      ∃ i, t1 = Tid.worker i ∧ b.workers[i]? = some (WorkerPc.running (some task)) ∧
        task_at b.heap task = (f, x) := by
  obtain ⟨new, h1, h2⟩ := hp.hexec
  refine ⟨new ++ tag t evs, by rw [htr, h1, List.append_assoc], ?_⟩
  intro t1 task f x hm
  rcases List.mem_append.mp hm with h3 | h3
  · exact h2 t1 task f x h3
  · simp only [tag, List.mem_map, Prod.mk.injEq] at h3
    obtain ⟨ev, hev1, hev2, hev3⟩ := h3
    subst hev2 hev3
    exact hq task f x hev1

theorem thpool_destroy_loop_no_exec (pool : thpool_t) :
    ∀ task f x, Event.exec task f x ∉ (thpool_destroy_loop pool).2 := by
  intro task f x
  unfold thpool_destroy_loop
  split <;> simp [thpool_destroy_exit]

/-- Every move of the machine keeps `Post`. -/
theorem step_post {b s s1 : State} {a : Action} {ns : List Nat}
    (hi : Inv s ns) (hp : Post b s) (hs : step s a = some s1) : Post b s1 := by
  cases a with
  | add p f x mem =>
    simp only [step] at hs
    cases hr : thpool_add s.heap s.pool f x mem with
    | none => rw [hr] at hs; cases hs
    | some r =>
      rw [hr] at hs
      simp only [Option.some.injEq] at hs
      subst hs
      rcases thpool_add_spec hi.hchain hi.htail hr with
        ⟨_, hheap, hpool, _, hev⟩ | ⟨_, _, _, _, h0, _⟩
      · refine ⟨by show r.pool.shutdown ≠ 0; rw [hpool]; exact hp.hshut, hp.hcalled, ?_, ?_⟩
        · intro i a hw
          show _ ∧ r.heap a = b.heap a
          rw [hheap]
          exact hp.hheld i a hw
        · refine post_extend hp rfl ?_
          intro task f1 x1 hm
          rcases hev with e | e <;> rw [e] at hm <;> simp at hm
      · exact absurd h0 hp.hshut
  | worker i =>
    simp only [step] at hs
    have hsync : ∀ first, (∀ task f x, first ≠ Event.exec task f x) →
        thpool_thread_sync s i first = some s1 → Post b s1 := by
      intro first hf h1
      unfold thpool_thread_sync at h1
      cases hw : thpool_thread_locked s.heap s.pool with
      | none => rw [hw] at h1; cases h1
      | some r =>
        obtain ⟨pool1, pc, evs⟩ := r
        rw [hw] at h1
        simp only [Option.some.injEq] at h1
        subst h1
        rcases thpool_thread_locked_spec hi.hchain hi.htail hw with
          ⟨_, h0, _⟩ | ⟨_, hpool, hpc, hev⟩ | ⟨_, _, _, h0, _⟩
        · exact absurd h0 hp.hshut
        · subst hpool hpc hev
          refine ⟨hp.hshut, hp.hcalled, ?_, ?_⟩
          · intro j a hj
            rcases set_get_cases hj with ⟨_, e⟩ | ⟨_, e⟩
            · cases e
            · exact hp.hheld j a e
          · refine post_extend hp rfl ?_
            intro task f1 x1 hm
            simp only [List.mem_cons, List.mem_singleton, List.not_mem_nil, or_false] at hm
            rcases hm with e | e
            · exact absurd e.symm (hf task f1 x1)
            · cases e
        · exact absurd h0 hp.hshut
    split at hs
    · exact hsync Event.lock (fun _ _ _ e => by cases e) hs
    · exact hsync Event.wait_acquire (fun _ _ _ e => by cases e) hs
    · next task hw =>
      cases task with
      | none =>
        simp only [thpool_thread_run, Option.some.injEq] at hs
        subst hs
        refine ⟨hp.hshut, hp.hcalled, ?_, ?_⟩
        · intro j a hj
          rcases set_get_cases hj with ⟨_, e⟩ | ⟨_, e⟩
          · cases e
          · exact hp.hheld j a e
        · refine post_extend hp rfl ?_
          intro task f1 x1 hm
          cases hm
      | some t =>
        obtain ⟨halive, _⟩ := hi.hown i t hw
        cases ht : s.heap t with
        | none => exact absurd ht halive
        | some n =>
          simp only [thpool_thread_run, ht, Option.some.injEq] at hs
          subst hs
          obtain ⟨hb1, hb2⟩ := hp.hheld i t hw
          refine ⟨hp.hshut, hp.hcalled, ?_, ?_⟩
          · intro j a hj
            rcases set_get_cases hj with ⟨_, e⟩ | ⟨hji, e⟩
            · cases e
            · obtain ⟨h1, h2⟩ := hp.hheld j a e
              have hne : a ≠ t := fun e2 => hji (hi.hdistinct j i t (e2 ▸ e) hw)
              exact ⟨h1, by show s.heap.set t none a = b.heap a
                            rw [Heap.set_other _ _ hne]; exact h2⟩
          · refine post_extend hp rfl ?_
            intro task f1 x1 hm
            simp only [List.mem_singleton, Event.exec.injEq] at hm
            obtain ⟨e1, e2, e3⟩ := hm
            subst e1 e2 e3
            refine ⟨i, rfl, hb1, ?_⟩
            simp [task_at, ← hb2, ht]
    · cases hs
  | destroy fuel =>
    simp only [step] at hs
    split at hs
    · next hd => exact absurd hd hp.hcalled
    · cases hs
  | join rc =>
    simp only [step] at hs
    split at hs
    · split at hs
      · split at hs
        · simp only [Option.some.injEq] at hs
          subst hs
          refine ⟨hp.hshut, by simp, hp.hheld, post_extend hp rfl ?_⟩
          intro task f1 x1 hm
          simp [thpool_destroy_exit] at hm
        · split at hs
          · simp only [Option.some.injEq] at hs
            subst hs
            refine ⟨hp.hshut, by simp, hp.hheld, post_extend hp rfl ?_⟩
            intro task f1 x1 hm
            simp at hm
          · cases hs
      · cases hs
    · cases hs
  | relock =>
    simp only [step] at hs
    split at hs
    · split at hs
      · cases hs
      · simp only [Option.some.injEq] at hs
        subst hs
        refine ⟨hp.hshut, thpool_destroy_loop_not_idle _, hp.hheld, post_extend hp rfl ?_⟩
        intro task f1 x1 hm
        rcases List.mem_cons.mp hm with e | e
        · cases e
        · exact absurd e (thpool_destroy_loop_no_exec _ task f1 x1)
    · cases hs

theorem run_post : ∀ (acts : List Action) {b s s1 : State} {ns : List Nat},
    Inv s ns → Post b s → run s acts = some s1 → Post b s1
  | [], b, s, s1, ns, _, hp, hr => by
    simp only [run, Option.some.injEq] at hr
    subst hr
    exact hp
  | a :: rest, b, s, s1, ns, hi, hp, hr => by
    simp only [run] at hr
    cases hs : step s a with
    | none => rw [hs] at hr; cases hr
    | some s2 =>
      rw [hs] at hr
      obtain ⟨ns2, hi2⟩ := step_inv hi hs
      exact run_post rest hi2 (step_post hi hp hs) hr

/-- Claim C3: take any state in which `thpool_destroy` has not been called
and the queue is the chain `ns` (the `M` queued tasks), workers possibly
holding tasks they have dequeued.  The first block of `thpool_destroy`
completes (given at least `M` iterations for its loop); it frees each of the
`M` nodes, calls no task, leaves `head` and `tail` at `NULL` and the shutdown
flag at 1.  In every continuation of the run the flag stays set and every
call of a task is made by a worker, for the node that this worker had already
dequeued and held when `thpool_destroy` started; that node is none of the
`M` queued ones. -/
theorem destroy_discards_queued_tasks (s : State) (ns : List Nat) (fuel : Nat)
    (hi : Inv s ns) (hidle : s.destroy = DestroyPc.idle) (hfuel : ns.length ≤ fuel) :
    ∃ s1, step s (Action.destroy fuel) = some s1 ∧
      s1.pool.queue = { head := none, tail := none } ∧ s1.pool.shutdown = 1 ∧
      (∀ a ∈ ns, s1.heap a = none) ∧ executed s1.trace = executed s.trace ∧
      ∀ acts s2, run s1 acts = some s2 →
        s2.pool.shutdown ≠ 0 ∧
        ∃ new, s2.trace = s1.trace ++ new ∧
          ∀ t task f x, (t, Event.exec task f x) ∈ new →
            task ∉ ns ∧ ∃ i, t = Tid.worker i ∧
              s.workers[i]? = some (WorkerPc.running (some task)) ∧
              task_at s.heap task = (f, x) := by
  obtain ⟨h1, hd, hfree, hkeep⟩ := thpool_destroy_drain_spec ns fuel s.heap _ hi.hchain hfuel
  cases hstep : step s (Action.destroy fuel) with
  | none => simp [step, hidle, hd] at hstep
  | some s1 =>
    obtain ⟨ns1, hi1⟩ := step_inv hi hstep
    simp only [step, hidle, hd, Option.some.injEq] at hstep
    subst hstep
    obtain ⟨_, _, q3⟩ := thpool_destroy_loop_quiet
      { s.pool with queue := { head := none, tail := none }, shutdown := 1 }
      [Event.lock, Event.set_shutdown] (Or.inl rfl)
    refine ⟨_, rfl, rfl, rfl, hfree, ?_, ?_⟩
    · show executed (s.trace ++ tag Tid.destroyer ([Event.lock, Event.set_shutdown] ++
          (thpool_destroy_loop _).2)) = executed s.trace
      rw [executed_append, q3, List.append_nil]
    · intro acts s2 hr
      have hp := run_post acts hi1
        (post_refl (by show (1 : Int) ≠ 0; decide) (thpool_destroy_loop_not_idle _)) hr
      obtain ⟨new, hn1, hn2⟩ := hp.hexec
      refine ⟨hp.hshut, new, hn1, ?_⟩
      intro t task f x hm
      obtain ⟨i, e1, e2, e3⟩ := hn2 t task f x hm
      have e2' : s.workers[i]? = some (WorkerPc.running (some task)) := e2
      have hnq : task ∉ ns := (hi.hown i task e2').2
      refine ⟨hnq, i, e1, e2', ?_⟩
      rw [← e3]
      exact (task_at_congr (hkeep task hnq)).symm

/-- The state reached by `two_queued` satisfies the structural invariant with
the queue `[2, 3]`. -/
theorem two_queued_inv :
    Inv (run_or (init_state Heap.empty (pool_of 2) 2) two_queued) [2, 3] := by
  have hr : run (init_state Heap.empty (pool_of 2) 2) two_queued =
      some (run_or (init_state Heap.empty (pool_of 2) 2) two_queued) := rfl
  obtain ⟨ns, hi⟩ := run_inv two_queued (inv_init Heap.empty (pool_of 2) 2 rfl) hr
  have hc : chain (run_or (init_state Heap.empty (pool_of 2) 2) two_queued).heap
      (run_or (init_state Heap.empty (pool_of 2) 2) two_queued).pool.queue.head [2, 3] :=
    ⟨rfl, _, rfl, rfl, _, rfl, rfl⟩
  rw [chain_unique hi.hchain hc] at hi
  exact hi

/-- The statement of C3 on the state reached by `two_queued`, where nodes 2 and
3 are queued and worker 0 holds node 1. -/
theorem destroy_discards_queued_tasks_witness :
    ∃ s1, step (run_or (init_state Heap.empty (pool_of 2) 2) two_queued) (Action.destroy 2) =
        some s1 ∧
      s1.pool.queue = { head := none, tail := none } ∧ s1.pool.shutdown = 1 ∧
      (∀ a ∈ [2, 3], s1.heap a = none) ∧
      executed s1.trace =
        executed (run_or (init_state Heap.empty (pool_of 2) 2) two_queued).trace ∧
      ∀ acts s2, run s1 acts = some s2 →
        s2.pool.shutdown ≠ 0 ∧
        ∃ new, s2.trace = s1.trace ++ new ∧
          ∀ t task f x, (t, Event.exec task f x) ∈ new →
            task ∉ [2, 3] ∧ ∃ i, t = Tid.worker i ∧
              (run_or (init_state Heap.empty (pool_of 2) 2) two_queued).workers[i]? =
                some (WorkerPc.running (some task)) ∧
              task_at (run_or (init_state Heap.empty (pool_of 2) 2) two_queued).heap task =
                (f, x) :=
  destroy_discards_queued_tasks (run_or (init_state Heap.empty (pool_of 2) 2) two_queued)
    [2, 3] 2 two_queued_inv rfl (by decide)

/-! ## Lock discipline -/

/-- The run `two_queued` followed by `thpool_destroy`: the worker that held a
task runs it and both workers return; the two queued tasks are never run. -/
theorem destroy_then_workers_example :
    (run (init_state Heap.empty (pool_of 2) 2)
        (two_queued ++ [Action.destroy 2, Action.worker 0, Action.worker 1, Action.worker 0,
          Action.join 0, Action.join 0, Action.relock])).map
        (fun s => (submitted s.trace, executed s.trace, s.destroy, s.pool.size)) =
      some ([(10, 100), (11, 101), (12, 102)], [(10, 100)], DestroyPc.returned 0, 0) := by
  decide

/-- Claim C10, the code at the failing input: a pool with one worker whose
`pthread_join` fails with code 3.  These are the calls of `thpool_destroy`, in
order: after the unlock of line 208 and the failed join, the two `break`s skip
the lock of line 220, and line 222 unlocks the mutex again; followed from
"not held", the sequence releases a mutex that the thread does not hold. -/
theorem destroy_join_failure_unlocks_unheld_mutex :
    (run (init_state Heap.empty (pool_of 1) 1) [Action.destroy 0, Action.join 3]).map
        (fun s => events_of Tid.destroyer s.trace) =
      some [Event.lock, Event.set_shutdown, Event.broadcast, Event.unlock, Event.join 0 3,
        Event.unlock, Event.cond_destroy, Event.mutex_destroy, Event.free_threads,
        Event.free_pool] ∧
    lock_walk false [Event.lock, Event.set_shutdown, Event.broadcast, Event.unlock,
        Event.join 0 3, Event.unlock, Event.cond_destroy, Event.mutex_destroy,
        Event.free_threads, Event.free_pool] = none := by
  decide

/-! ## What `thpool_create` does in general -/

theorem spawn_loop_fields (env : CreateEnv) : ∀ (n i : Nat) (p0 p1 : thpool_t),
    (spawn_loop env n i p0).2 = some p1 →
    p1.size = p0.size + n ∧ p1.shutdown = p0.shutdown ∧ p1.queue = p0.queue
  | 0, i, p0, p1, e => by
    simp only [spawn_loop, Option.some.injEq] at e
    subst e
    simp
  | n + 1, i, p0, p1, e => by
    simp only [spawn_loop] at e
    split at e
    · cases e
    · obtain ⟨h1, h2, h3⟩ := spawn_loop_fields env n (i + 1) _ p1 e
      refine ⟨?_, h2, h3⟩
      rw [h1]
      push_cast
      ring

theorem spawn_loop_no_stop (env : CreateEnv) : ∀ (n i : Nat) (p0 : thpool_t),
    ∀ e ∈ (spawn_loop env n i p0).1, is_stop_event e = false
  | 0, i, p0, e, he => by
    simp [spawn_loop] at he
  | n + 1, i, p0, e, he => by
    simp only [spawn_loop] at he
    split at he
    · simp only [List.mem_cons, List.mem_singleton, List.not_mem_nil, or_false] at he
      rcases he with rfl | rfl <;> rfl
    · rcases List.mem_cons.mp he with rfl | h1
      · rfl
      · exact spawn_loop_no_stop env n (i + 1) _ e h1

/-- On every path, `thpool_create` makes no call that tells a worker to stop
or waits for one; in particular not after a failed `pthread_create`. -/
theorem thpool_create_never_stops_workers (sz : Nat) (env : CreateEnv) (size : Int) :
    ∀ e ∈ (thpool_create sz env size).1, is_stop_event e = false := by
  intro e he
  simp only [thpool_create] at he
  split at he
  · simp at he; subst he; rfl
  · next raw hraw =>
    split at he
    · simp at he; rcases he with rfl | rfl | rfl <;> rfl
    · split at he
      · simp at he; rcases he with rfl | rfl | rfl | rfl | rfl <;> rfl
      · split at he
        · simp at he
          rcases he with rfl | rfl | rfl | rfl | rfl | rfl | rfl <;> rfl
        · split at he
          · next evs hp =>
            have h1 := spawn_loop_no_stop env size.toNat 0
              { raw with shutdown := 0, queue := { head := none, tail := none } }
            rw [hp] at h1
            simp only [List.append_assoc, List.mem_append, List.mem_cons, List.mem_singleton,
              List.not_mem_nil, or_false] at he
            rcases he with (rfl | rfl | rfl | rfl | rfl) | h2 | rfl | rfl | rfl | rfl <;>
              first | rfl | exact h1 e h2
          · next evs p1 hp =>
            have h1 := spawn_loop_no_stop env size.toNat 0
              { raw with shutdown := 0, queue := { head := none, tail := none } }
            rw [hp] at h1
            simp only [List.append_assoc, List.mem_append, List.mem_cons, List.mem_singleton,
              List.not_mem_nil, or_false] at he
            rcases he with (rfl | rfl | rfl | rfl | rfl) | h2 | rfl <;>
              first | rfl | exact h1 e h2

/-- The pool returned by `thpool_create`: the shutdown flag is clear, the
queue is empty, and the counter is the value that the allocated block held in
its counter field plus the number of workers created. -/
theorem thpool_create_success_fields (sz : Nat) (env : CreateEnv) (size : Int)
    (pool : thpool_t) (hr : (thpool_create sz env size).2 = some pool) :
    pool.shutdown = 0 ∧ pool.queue = { head := none, tail := none } ∧
      ∃ raw, env.pool_mem = some raw ∧ pool.size = raw.size + size.toNat := by
  simp only [thpool_create] at hr
  split at hr
  · cases hr
  · next raw hraw =>
    split at hr
    · cases hr
    · split at hr
      · cases hr
      · split at hr
        · cases hr
        · split at hr
          · cases hr
          · next evs p1 hp =>
            simp only [Option.some.injEq] at hr
            subst hr
            obtain ⟨h1, h2, h3⟩ := spawn_loop_fields env _ _ _ p1 (by rw [hp])
            exact ⟨h2, h3, raw, hraw, h1⟩

/-! ## Lock discipline on the other paths -/

theorem lock_walk_append : ∀ (xs ys : List Event) (b : Bool),
    lock_walk b (xs ++ ys) = (lock_walk b xs).bind (fun b1 => lock_walk b1 ys)
  | [], ys, b => rfl
  | e :: xs, ys, b => by
    have ih := lock_walk_append xs ys
    cases e <;> cases b <;> simp [lock_walk, ih]

theorem events_of_append (t t1 : Tid) (tr : List (Tid × Event)) (evs : List Event) :
    events_of t (tr ++ tag t1 evs) = events_of t tr ++ (if t1 = t then evs else []) := by
  simp only [events_of, List.filter_append, List.map_append, tag, List.filter_map]
  congr 1
  by_cases h : t1 = t
  · subst h
    simp
  · simp [h]

theorem lock_ok_extend {tr : List (Tid × Event)} {t1 : Tid} {evs : List Event}
    (h : lock_ok tr) (hev : lock_walk false evs = some false) :
    lock_ok (tr ++ tag t1 evs) := by
  intro t
  rw [events_of_append, lock_walk_append, h t]
  by_cases e : t1 = t
  · simp [e, hev]
  · simp [e, lock_walk]

theorem thpool_add_lock {h : Heap} {pool : thpool_t} {f x : Nat}
    {mem : Option (Nat × Option Nat)} {r : AddResult}
    (hr : thpool_add h pool f x mem = some r) : lock_walk false r.events = some false := by
  unfold thpool_add at hr
  split at hr
  · simp only [Option.some.injEq] at hr
    subst hr
    rfl
  · split at hr
    · cases hr
    · split at hr
      · simp only [Option.some.injEq] at hr
        subst hr
        rfl
      · dsimp only at hr
        split at hr
        · cases hr
        · simp only [Option.some.injEq] at hr
          subst hr
          rfl

theorem thpool_thread_locked_lock {h : Heap} {pool pool1 : thpool_t} {pc : WorkerPc}
    {evs : List Event} (hr : thpool_thread_locked h pool = some (pool1, pc, evs)) :
    lock_walk true evs = some false := by
  unfold thpool_thread_locked at hr
  split at hr
  · simp only [Option.some.injEq, Prod.mk.injEq] at hr
    obtain ⟨_, _, h3⟩ := hr
    subst h3
    rfl
  · split at hr
    · simp only [Option.some.injEq, Prod.mk.injEq] at hr
      obtain ⟨_, _, h3⟩ := hr
      subst h3
      rfl
    · split at hr
      · cases hr
      · next q task _ =>
        simp only [Option.some.injEq, Prod.mk.injEq] at hr
        obtain ⟨_, _, h3⟩ := hr
        subst h3
        cases task <;> rfl

theorem thpool_thread_run_lock {h h1 : Heap} {task : Option Nat} {evs : List Event}
    (hr : thpool_thread_run h task = some (h1, evs)) : lock_walk false evs = some false := by
  unfold thpool_thread_run at hr
  split at hr
  · simp only [Option.some.injEq, Prod.mk.injEq] at hr
    obtain ⟨_, h3⟩ := hr
    subst h3
    rfl
  · split at hr
    · cases hr
    · simp only [Option.some.injEq, Prod.mk.injEq] at hr
      obtain ⟨_, h3⟩ := hr
      subst h3
      rfl

theorem thpool_destroy_loop_lock (pool : thpool_t) :
    lock_walk true (thpool_destroy_loop pool).2 = some false := by
  unfold thpool_destroy_loop
  split <;> rfl

/-- Every move other than a failing `pthread_join` keeps the lock discipline
of every thread. -/
theorem step_lock_ok {s s1 : State} {a : Action} (hj : join_succeeds a = true)
    (hl : lock_ok s.trace) (hs : step s a = some s1) : lock_ok s1.trace := by
  cases a with
  | add p f x mem =>
    simp only [step] at hs
    cases hr : thpool_add s.heap s.pool f x mem with
    | none => rw [hr] at hs; cases hs
    | some r =>
      rw [hr] at hs
      simp only [Option.some.injEq] at hs
      subst hs
      exact lock_ok_extend hl (thpool_add_lock hr)
  | worker i =>
    simp only [step] at hs
    have hsync : ∀ first, (∀ evs, lock_walk false (first :: evs) = lock_walk true evs) →
        thpool_thread_sync s i first = some s1 → lock_ok s1.trace := by
      intro first hf h1
      unfold thpool_thread_sync at h1
      cases hw : thpool_thread_locked s.heap s.pool with
      | none => rw [hw] at h1; cases h1
      | some r =>
        obtain ⟨pool1, pc, evs⟩ := r
        rw [hw] at h1
        simp only [Option.some.injEq] at h1
        subst h1
        exact lock_ok_extend hl (by rw [hf]; exact thpool_thread_locked_lock hw)
    split at hs
    · exact hsync Event.lock (fun _ => rfl) hs
    · exact hsync Event.wait_acquire (fun _ => rfl) hs
    · next task hw =>
      cases hrun : thpool_thread_run s.heap task with
      | none => rw [hrun] at hs; cases hs
      | some r =>
        obtain ⟨h1, evs⟩ := r
        rw [hrun] at hs
        simp only [Option.some.injEq] at hs
        subst hs
        exact lock_ok_extend hl (thpool_thread_run_lock hrun)
    · cases hs
  | destroy fuel =>
    simp only [step] at hs
    split at hs
    · split at hs
      · cases hs
      · simp only [Option.some.injEq] at hs
        subst hs
        exact lock_ok_extend hl (thpool_destroy_loop_lock _)
    · cases hs
  | join rc =>
    have hrc : rc = 0 := by simpa [join_succeeds] using hj
    subst hrc
    simp only [step] at hs
    split at hs
    · split at hs
      · simp only [ne_eq, not_true_eq_false, ite_false] at hs
        split at hs
        · simp only [Option.some.injEq] at hs
          subst hs
          exact lock_ok_extend hl rfl
        · cases hs
      · cases hs
    · cases hs
  | relock =>
    simp only [step] at hs
    split at hs
    · split at hs
      · cases hs
      · simp only [Option.some.injEq] at hs
        subst hs
        exact lock_ok_extend hl (thpool_destroy_loop_lock _)
    · cases hs

/-- In every run without a failing `pthread_join`, every worker, every
producer and `thpool_destroy` lock and unlock the mutex in turn and hold it
at no point between two blocks. -/
theorem run_lock_ok : ∀ (acts : List Action) {s s1 : State},
    (∀ a ∈ acts, join_succeeds a = true) → lock_ok s.trace →
    run s acts = some s1 → lock_ok s1.trace
  | [], s, s1, _, hl, hr => by
    simp only [run, Option.some.injEq] at hr
    subst hr
    exact hl
  | a :: rest, s, s1, hj, hl, hr => by
    simp only [run] at hr
    cases hs : step s a with
    | none => rw [hs] at hr; cases hr
    | some s2 =>
      rw [hs] at hr
      exact run_lock_ok rest (fun b hb => hj b (List.mem_cons_of_mem a hb))
        (step_lock_ok (hj a (List.mem_cons_self a rest)) hl hs) hr

/-- A failing `pthread_join` always ends in an unlock of a mutex that
`thpool_destroy` does not hold. -/
theorem join_failure_lock_walk {s s1 : State} {rc : Int} (hrc : rc ≠ 0)
    (hl : lock_ok s.trace) (hs : step s (Action.join rc) = some s1) :
    lock_walk false (events_of Tid.destroyer s1.trace) = none := by
  simp only [step] at hs
  split at hs
  · split at hs
    · simp only [hrc, ne_eq, not_false_eq_true, ite_true, Option.some.injEq] at hs
      subst hs
      rw [events_of_append, lock_walk_append, hl Tid.destroyer]
      rfl
    · cases hs
  · cases hs

theorem spawn_loop_lock (env : CreateEnv) : ∀ (n i : Nat) (p0 : thpool_t),
    lock_walk true (spawn_loop env n i p0).1 =
      some ((spawn_loop env n i p0).2).isSome
  | 0, i, p0 => rfl
  | n + 1, i, p0 => by
    simp only [spawn_loop]
    split
    · rfl
    · exact spawn_loop_lock env n (i + 1) _

/-- On every path `thpool_create` locks and unlocks the mutex in turn and
returns without holding it. -/
theorem thpool_create_lock (sz : Nat) (env : CreateEnv) (size : Int) :
    lock_walk false (thpool_create sz env size).1 = some false := by
  simp only [thpool_create]
  split
  · rfl
  · next raw hraw =>
    split
    · rfl
    · split
      · rfl
      · split
        · rfl
        · have h1 := spawn_loop_lock env size.toNat 0
            { raw with shutdown := 0, queue := { head := none, tail := none } }
          have hpre : ∀ rest, lock_walk false
              ([Event.malloc_pool true, Event.malloc_threads (threads_bytes sz size) true,
                Event.mutex_init env.mutex_init, Event.cond_init env.cond_init,
                Event.lock] ++ rest) = lock_walk true rest := fun _ => rfl
          split
          · next evs hp =>
            rw [hp] at h1
            have h2 : lock_walk true evs = some false := h1
            show lock_walk false (_ ++ evs ++ _) = some false
            rw [List.append_assoc, hpre, lock_walk_append, h2]
            rfl
          · next evs p1 hp =>
            rw [hp] at h1
            have h2 : lock_walk true evs = some true := h1
            show lock_walk false (_ ++ evs ++ _) = some false
            rw [List.append_assoc, hpre, lock_walk_append, h2]
            rfl

end Thpool
